import Mathlib

/-!
Verification development for the chess engine and alpha-beta search agent
of this repository (source files `src/chessapp/engine.py` and
`src/chessapp/ai.py`).

The Python classes are shallowly embedded as pure Lean functions:

* the mutable `Board` object becomes an immutable `Board` structure and
  every mutating method (`_apply_move`, `make_move`) becomes a function
  returning the new state; `Board.clone` is therefore the identity,
  because values are copied by the semantics of the embedding;
* board squares are a row-major 8x8 `List (List (Option Piece))` exactly
  like the Python `board[r][c]` field; coordinates are `Int`, so that the
  arithmetic `r + forward` with `forward = -1` behaves as in Python
  (no truncation at zero).  The source indexes the lists only after an
  `in_bounds` check, and the embedding's `board_get`/`board_set` return
  `none` / leave the board unchanged outside `[0,8) x [0,8)`;
* Python generators become `List Move` in yield order;
* the `history` field is never read by any engine or search operation,
  only appended to, so it is not part of the embedded state;
* exceptions: `king_position` raising `ValueError` is modelled by
  `Option`; call sites that the source protects with `try/except` handle
  the `none` case the way the exception handler does.
-/

namespace Chessapp

/-- Piece colour, source strings `"w"` / `"b"`. -/
inductive Color where
  | white : Color
  | black : Color
deriving DecidableEq, Repr

/-- Piece kind, source letters `"P" "N" "B" "R" "Q" "K"`. -/
inductive Kind where
  | P : Kind
  | N : Kind
  | B : Kind
  | R : Kind
  | Q : Kind
  | K : Kind
deriving DecidableEq, Repr

/-- A piece, source two-character strings such as `"wP"`: `piece[0]` is
the colour and `piece[1]` the kind. -/
structure Piece where
  color : Color
  kind : Kind
deriving DecidableEq, Repr

/-- The 8x8 square array `Board.board`. -/
abbrev Squares := List (List (Option Piece))

/-- A move, source dataclass `Move(start, end, promotion)`.  The `end`
field is named `stop` because `end` is a Lean keyword. -/
structure Move where
  start : Int × Int
  stop : Int × Int
  promotion : Option Kind := none
deriving DecidableEq, Repr

/-- Source `Board.in_bounds`. -/
def in_bounds (r c : Int) : Bool :=
  decide (0 ≤ r) && decide (r < 8) && decide (0 ≤ c) && decide (c < 8)

/-- Reading `board[r][c]`.  The source only indexes after `in_bounds`
checks (or with coordinates produced by the generator), so the embedding
returns `none` out of bounds. -/
def board_get (bd : Squares) (r c : Int) : Option Piece :=
  if in_bounds r c then ((bd[r.toNat]?).getD [])[c.toNat]?.getD none else none

/-- Writing `board[r][c] = p`; out-of-bounds writes leave the array
unchanged (the source never performs one on the paths modelled here). -/
def board_set (bd : Squares) (r c : Int) (p : Option Piece) : Squares :=
  if in_bounds r c then bd.set r.toNat ((bd[r.toNat]?.getD []).set c.toNat p) else bd

/-- The game state: `Board.__init__`'s fields.  The four castling flags
are the entries `"K" "Q" "k" "q"` of the Python `castling_rights` dict. -/
structure Board where
  board : Squares
  turn : Color
  castling_K : Bool
  castling_Q : Bool
  castling_k : Bool
  castling_q : Bool
  en_passant : Option (Int × Int)
  halfmove_clock : Nat
  fullmove_number : Nat
deriving DecidableEq, Repr

/-- Source `Board.clone`: a deep copy, which for immutable values is the
identity. -/
def clone (b : Board) : Board := b

/-- Source `Board.piece_at`. -/
def piece_at (b : Board) (sq : Int × Int) : Option Piece :=
  board_get b.board sq.1 sq.2

/-- The row-major traversal order `for r in range(8): for c in range(8)`. -/
def all_squares : List (Int × Int) :=
  (List.range 8).flatMap fun r => (List.range 8).map fun c => ((r : Int), (c : Int))

/-- Source `Board.king_position`; `none` models the `ValueError` raised
when no king of the colour is on the board. -/
def king_position (b : Board) (color : Color) : Option (Int × Int) :=
  all_squares.find? fun sq => piece_at b sq == some ⟨color, Kind.K⟩

/-- Promotion kinds in source order `["Q", "R", "B", "N"]`. -/
def promos : List Kind := [Kind.Q, Kind.R, Kind.B, Kind.N]

/-- One step of `_piece_moves` for a knight or king delta. -/
def step_move (bd : Squares) (enemy : Color) (r c : Int) (d : Int × Int) : List Move :=
  let nr := r + d.1
  let nc := c + d.2
  if in_bounds nr nc then
    match board_get bd nr nc with
    | none => [Move.mk (r, c) (nr, nc) none]
    | some t => if t.color = enemy then [Move.mk (r, c) (nr, nc) none] else []
  else []

def knight_deltas : List (Int × Int) :=
  [(2, 1), (1, 2), (-1, 2), (-2, 1), (-2, -1), (-1, -2), (1, -2), (2, -1)]

def king_deltas : List (Int × Int) :=
  [(1, 0), (1, 1), (0, 1), (-1, 1), (-1, 0), (-1, -1), (0, -1), (1, -1)]

def bishop_dirs : List (Int × Int) := [(1, 1), (1, -1), (-1, 1), (-1, -1)]

def rook_dirs : List (Int × Int) := [(1, 0), (-1, 0), (0, 1), (0, -1)]

def queen_dirs : List (Int × Int) :=
  [(1, 1), (1, -1), (-1, 1), (-1, -1), (1, 0), (-1, 0), (0, 1), (0, -1)]

/-- The `while in_bounds` ray walk of `_piece_moves` for sliding pieces.
A ray on an 8x8 board visits at most 7 in-bounds squares before leaving
the board (each step changes a coordinate monotonically by 1), so fuel 8
makes the recursion total without changing the visited squares. -/
def ray_go (bd : Squares) (enemy : Color) (sq : Int × Int) (dr dc : Int) :
    Nat → Int → Int → List Move
  | 0, _, _ => []
  | fuel + 1, nr, nc =>
    if in_bounds nr nc then
      match board_get bd nr nc with
      | none => Move.mk sq (nr, nc) none :: ray_go bd enemy sq dr dc fuel (nr + dr) (nc + dc)
      | some t => if t.color = enemy then [Move.mk sq (nr, nc) none] else []
    else []

def ray_moves (bd : Squares) (enemy : Color) (sq : Int × Int) (dr dc : Int) : List Move :=
  ray_go bd enemy sq dr dc 8 (sq.1 + dr) (sq.2 + dc)

/-- The castling yields at the end of the king branch of `_piece_moves`
(suppressed in `attacks_only` mode).  As in the source, the king moves
are hardcoded from `e1`/`e8` and only emptiness of the squares between
king and rook is checked. -/
def castle_moves (b : Board) (color : Color) : List Move :=
  if color = Color.white then
    (if b.castling_K && (board_get b.board 7 5).isNone && (board_get b.board 7 6).isNone then
      [Move.mk (7, 4) (7, 6) none]
    else []) ++
    (if b.castling_Q && (board_get b.board 7 3).isNone && (board_get b.board 7 2).isNone &&
        (board_get b.board 7 1).isNone then
      [Move.mk (7, 4) (7, 2) none]
    else [])
  else
    (if b.castling_k && (board_get b.board 0 5).isNone && (board_get b.board 0 6).isNone then
      [Move.mk (0, 4) (0, 6) none]
    else []) ++
    (if b.castling_q && (board_get b.board 0 3).isNone && (board_get b.board 0 2).isNone &&
        (board_get b.board 0 1).isNone then
      [Move.mk (0, 4) (0, 2) none]
    else [])

/-- Source `Board._piece_moves`, in yield order.  The source's shared
`("N", "K")` branch is split into two arms with the same delta logic,
and the `else` branch (sliders) into the three concrete kinds. -/
def piece_moves (b : Board) (sq : Int × Int) (piece : Piece) (attacks_only : Bool) : List Move :=
  let color := piece.color
  let r := sq.1
  let c := sq.2
  let forward : Int := if color = Color.white then -1 else 1
  let enemy := if color = Color.white then Color.black else Color.white
  match piece.kind with
  | Kind.P =>
    let push :=
      let nr := r + forward
      if in_bounds nr c && !attacks_only && (board_get b.board nr c).isNone then
        (if nr = 0 ∨ nr = 7 then promos.map fun pr => Move.mk (r, c) (nr, c) (some pr)
         else [Move.mk (r, c) (nr, c) none]) ++
        (let start_rank : Int := if color = Color.white then 6 else 1
         if r = start_rank then
           let nnr := r + 2 * forward
           if (board_get b.board nnr c).isNone then [Move.mk (r, c) (nnr, c) none] else []
         else [])
      else []
    let caps := ([-1, 1] : List Int).flatMap fun dc =>
      let nr := r + forward
      let nc := c + dc
      if in_bounds nr nc then
        (match board_get b.board nr nc with
         | some t =>
           if t.color = enemy then
             (if nr = 0 ∨ nr = 7 then promos.map fun pr => Move.mk (r, c) (nr, nc) (some pr)
              else [Move.mk (r, c) (nr, nc) none])
           else []
         | none => []) ++
        (if b.en_passant = some (nr, nc) then [Move.mk (r, c) (nr, nc) none] else [])
      else []
    push ++ caps
  | Kind.N => knight_deltas.flatMap (step_move b.board enemy r c)
  | Kind.K =>
    king_deltas.flatMap (step_move b.board enemy r c) ++
      (if attacks_only then [] else castle_moves b color)
  | Kind.B => bishop_dirs.flatMap fun d => ray_moves b.board enemy (r, c) d.1 d.2
  | Kind.R => rook_dirs.flatMap fun d => ray_moves b.board enemy (r, c) d.1 d.2
  | Kind.Q => queen_dirs.flatMap fun d => ray_moves b.board enemy (r, c) d.1 d.2

/-- Source `Board.generate_pseudo_legal_moves`. -/
def generate_pseudo_legal_moves (b : Board) : List Move :=
  all_squares.flatMap fun sq =>
    match board_get b.board sq.1 sq.2 with
    | some p => if p.color = b.turn then piece_moves b sq p false else []
    | none => []

/-- Source `Board._square_attacked`: brute-force scan of all pseudo
attacking moves of `by_color`. -/
def square_attacked (b : Board) (sq : Int × Int) (by_color : Color) : Bool :=
  all_squares.any fun rc =>
    match board_get b.board rc.1 rc.2 with
    | some p => p.color == by_color && (piece_moves b rc p true).any fun mv => mv.stop == sq
    | none => false

/-- Source `Board.is_in_check`.  When no king of the colour exists the
source raises `ValueError`; the embedding returns `false` there, a branch
unreachable whenever the king is on the board. -/
def is_in_check (b : Board) (color : Color) : Bool :=
  match king_position b color with
  | some ksq => square_attacked b ksq (if color = Color.black then Color.white else Color.black)
  | none => false

/-- The en-passant branch at the top of `Board._apply_move` (lines
251-261): the possibly-modified square array together with the
`captured` value after the branch. -/
def ep_step (b : Board) (mv : Move) : Squares × Option Piece :=
  let er := mv.stop.1
  let ec := mv.stop.2
  let piece := board_get b.board mv.start.1 mv.start.2
  let captured0 := board_get b.board er ec
  match piece with
  | some p =>
    if p.kind = Kind.P ∧ b.en_passant = some (er, ec) ∧ captured0 = none then
      let direction : Int := if p.color = Color.white then 1 else -1
      (board_set b.board (er - direction) ec none,
       some ⟨if p.color = Color.white then Color.black else Color.white, Kind.P⟩)
    else (b.board, captured0)
  | none => (b.board, captured0)

/-- The square-array updates of `Board._apply_move` (lines 251-275):
en-passant removal, piece move, promotion substitution and castling rook
move. -/
def moved_board (b : Board) (mv : Move) : Squares :=
  let sr := mv.start.1
  let sc := mv.start.2
  let er := mv.stop.1
  let ec := mv.stop.2
  let piece := board_get b.board sr sc
  let bd1 := (ep_step b mv).1
  let bd2 := board_set bd1 er ec piece
  let bd3 := board_set bd2 sr sc none
  let bd4 :=
    match piece, mv.promotion with
    | some p, some promo =>
      if p.kind = Kind.P then board_set bd3 er ec (some ⟨p.color, promo⟩) else bd3
    | _, _ => bd3
  match piece with
  | some p =>
    if p.kind = Kind.K ∧ (ec - sc).natAbs = 2 then
      if ec = 6 then board_set (board_set bd4 er 5 (board_get bd4 er 7)) er 7 none
      else board_set (board_set bd4 er 3 (board_get bd4 er 0)) er 0 none
    else bd4
  | none => bd4

/-- Source `Board._apply_move`, line by line; the returned `Board` is the
state of the mutated object after the call. -/
def apply_move (b : Board) (mv : Move) : Board :=
  let sr := mv.start.1
  let sc := mv.start.2
  let er := mv.stop.1
  let ec := mv.stop.2
  let piece := board_get b.board sr sc
  let captured := (ep_step b mv).2
  let bd5 := moved_board b mv
  let piece_is_pawn : Bool :=
    match piece with
    | some p => p.kind == Kind.P
    | none => false
  let en_passant' : Option (Int × Int) :=
    if piece_is_pawn ∧ (er - sr).natAbs = 2 then some ((er + sr) / 2, ec) else none
  let cK1 := if piece = some ⟨Color.white, Kind.K⟩ then false else b.castling_K
  let cQ1 := if piece = some ⟨Color.white, Kind.K⟩ then false else b.castling_Q
  let ck1 := if piece = some ⟨Color.black, Kind.K⟩ then false else b.castling_k
  let cq1 := if piece = some ⟨Color.black, Kind.K⟩ then false else b.castling_q
  let cQ2 := if piece = some ⟨Color.white, Kind.R⟩ ∧ sr = 7 ∧ sc = 0 then false else cQ1
  let cK2 := if piece = some ⟨Color.white, Kind.R⟩ ∧ sr = 7 ∧ sc = 7 then false else cK1
  let cq2 := if piece = some ⟨Color.black, Kind.R⟩ ∧ sr = 0 ∧ sc = 0 then false else cq1
  let ck2 := if piece = some ⟨Color.black, Kind.R⟩ ∧ sr = 0 ∧ sc = 7 then false else ck1
  let cQ3 := if captured = some ⟨Color.white, Kind.R⟩ ∧ er = 7 ∧ ec = 0 then false else cQ2
  let cK3 := if captured = some ⟨Color.white, Kind.R⟩ ∧ er = 7 ∧ ec = 7 then false else cK2
  let cq3 := if captured = some ⟨Color.black, Kind.R⟩ ∧ er = 0 ∧ ec = 0 then false else cq2
  let ck3 := if captured = some ⟨Color.black, Kind.R⟩ ∧ er = 0 ∧ ec = 7 then false else ck2
  let halfmove' := if piece_is_pawn ∨ captured ≠ none then 0 else b.halfmove_clock + 1
  let fullmove' := if b.turn = Color.black then b.fullmove_number + 1 else b.fullmove_number
  let turn' := if b.turn = Color.white then Color.black else Color.white
  { board := bd5, turn := turn',
    castling_K := cK3, castling_Q := cQ3, castling_k := ck3, castling_q := cq3,
    en_passant := en_passant', halfmove_clock := halfmove', fullmove_number := fullmove' }

/-- Source `Board._is_legal`: simulate on a clone and test the mover's
own king. -/
def is_legal (b : Board) (mv : Move) : Bool :=
  !(is_in_check (apply_move (clone b) mv) b.turn)

/-- Source `Board.generate_legal_moves`. -/
def generate_legal_moves (b : Board) : List Move :=
  (generate_pseudo_legal_moves b).filter (is_legal b)

/-- Source `Board.make_move`: the Bool is the return value, the Board the
state of the object after the call. -/
def make_move (b : Board) (mv : Move) : Bool × Board :=
  if mv ∈ generate_legal_moves b then (true, apply_move b mv) else (false, b)

/-- Source `Board.result`. -/
def result (b : Board) : Option String :=
  let legal := generate_legal_moves b
  if legal ≠ [] then none
  else if is_in_check b b.turn then
    (if b.turn = Color.black then some "1-0" else some "0-1")
  else some "1/2-1/2"

/-- Scores of the alpha-beta search: Python numbers together with the two
infinities `float("-inf")` / `float("inf")` used as sentinels.  All scores
the search actually produces are integers, embedded as `fin`. -/
inductive Score where
  | negInf : Score
  | fin : Int → Score
  | posInf : Score
deriving DecidableEq, Repr

/-- The numeric order of Python on scores and infinities. -/
def Score.ble : Score → Score → Bool
  | .negInf, _ => true
  | .fin a, .fin b => decide (a ≤ b)
  | .fin _, .posInf => true
  | .posInf, .posInf => true
  | .fin _, .negInf => false
  | .posInf, .fin _ => false
  | .posInf, .negInf => false

instance : LinearOrder Score where
  le a b := Score.ble a b = true
  le_refl a := by cases a <;> simp [Score.ble]
  le_trans a b c := by
    cases a <;> cases b <;> cases c <;> simp [Score.ble] <;> omega
  le_antisymm a b := by
    cases a <;> cases b <;> simp [Score.ble] <;> omega
  le_total a b := by
    cases a <;> cases b <;> simp [Score.ble] <;> omega
  decidableLE a b := instDecidableEqBool _ _

instance Score.instDecidableLE (a b : Score) : Decidable (a ≤ b) :=
  instDecidableEqBool _ _

instance Score.instDecidableLT (a b : Score) : Decidable (a < b) :=
  instDecidableAnd

/-- Unary minus on scores (negation of Python floats). -/
def Score.neg : Score → Score
  | .negInf => .posInf
  | .fin n => .fin (-n)
  | .posInf => .negInf

/-- Search configuration of `AggressiveAlphaBetaAI.__init__`.  The
`time_limit`, `nodes_evaluated` and `start_time` fields only matter for
the wall-clock cutoff and diagnostics; every claim here is about runs in
which the time limit never expires, so the deadline test
`time.time() - self.start_time > self.time_limit` is modelled as always
false and the node counter (a pure diagnostic) is dropped. -/
structure AggressiveAlphaBetaAI where
  max_depth : Nat
deriving DecidableEq, Repr

/-- The `piece_values` table of `AggressiveAlphaBetaAI.__init__`. -/
def piece_value : Kind → Int
  | Kind.P => 100
  | Kind.N => 320
  | Kind.B => 330
  | Kind.R => 500
  | Kind.Q => 900
  | Kind.K => 20000

/-- The body of the material-count loop of `evaluate_position` (lines
127-135): accumulates `(white_material, black_material)`. -/
def mat_step (b : Board) (acc : Int × Int) (rc : Int × Int) : Int × Int :=
  match board_get b.board rc.1 rc.2 with
  | some p =>
    if p.color = Color.white then (acc.1 + piece_value p.kind, acc.2)
    else (acc.1, acc.2 + piece_value p.kind)
  | none => acc

/-- The `(white_material, black_material)` totals accumulated by
`evaluate_position`'s scan over the board. -/
def material_totals (b : Board) : Int × Int :=
  all_squares.foldl (mat_step b) (0, 0)

/-- Declarative total material of one side: the sum of the piece values
of all pieces of that colour, written independently of the accumulator
loop (for comparison against `material_totals`). -/
def side_material (b : Board) (c : Color) : Int :=
  (all_squares.filterMap fun rc =>
    match board_get b.board rc.1 rc.2 with
    | some p => if p.color = c then some (piece_value p.kind) else none
    | none => none).sum

/-- Source `AggressiveAlphaBetaAI.evaluate_position`. -/
def evaluate_position (ai : AggressiveAlphaBetaAI) (b : Board) : Int :=
  let mat := material_totals b
  let white_material := mat.1
  let black_material := mat.2
  let score0 := white_material - black_material
  let material_diff := |white_material - black_material|
  let score1 :=
    if material_diff > 500 then
      let enemy_color := if b.turn = Color.white then Color.black else Color.white
      match king_position b enemy_color, king_position b b.turn with
      | some enemy_king_pos, some my_king_pos =>
        if (b.turn = Color.white ∧ white_material > black_material) ∨
            (b.turn = Color.black ∧ black_material > white_material) then
          let king_distance :=
            |my_king_pos.1 - enemy_king_pos.1| + |my_king_pos.2 - enemy_king_pos.2|
          let edge_distance :=
            min (min enemy_king_pos.1 (7 - enemy_king_pos.1))
              (min enemy_king_pos.2 (7 - enemy_king_pos.2))
          let s := score0 + (10 - king_distance) * 30 + (4 - edge_distance) * 50
          all_squares.foldl (fun s rc =>
            match board_get b.board rc.1 rc.2 with
            | some p =>
              if p.color = b.turn ∧ p.kind = Kind.Q then
                s + (8 - (|rc.1 - enemy_king_pos.1| + |rc.2 - enemy_king_pos.2|)) * 40
              else s
            | none => s) s
        else score0
      | _, _ => score0
    else score0
  score1 + ((generate_legal_moves b).length : Int) * 5

/-- The comparator `move_score` inside `AggressiveAlphaBetaAI.order_moves`.
The `try/except` around the simulated application is vacuous in the
embedding (`apply_move` is total). -/
def move_score (ai : AggressiveAlphaBetaAI) (b : Board) (mv : Move) : Int :=
  let s0 : Int :=
    match piece_at b mv.stop with
    | some captured => piece_value captured.kind * 10
    | none => 0
  let s1 := s0 + (if mv.promotion.isSome then 800 else 0)
  let cl := apply_move (clone b) mv
  if is_in_check cl cl.turn then
    s1 + 100 + (if generate_legal_moves cl = [] then 50000 else 0)
  else s1

/-- Source `AggressiveAlphaBetaAI.order_moves`: Python's stable
`sorted(..., reverse=True)`, i.e. a stable sort descending by score. -/
def order_moves (ai : AggressiveAlphaBetaAI) (b : Board) (moves : List Move) : List Move :=
  moves.mergeSort fun x y => decide (move_score ai b y ≤ move_score ai b x)

/-- The decisive-result branch at the top of
`AggressiveAlphaBetaAI.alpha_beta` (lines 76-83). -/
def decisive_score (ai : AggressiveAlphaBetaAI) (depth : Nat) (res : String)
    (maximizing : Bool) : Score :=
  if res = "1-0" then
    (if maximizing then Score.fin (10000 - ((ai.max_depth : Int) - depth))
     else Score.fin (-10000 + ((ai.max_depth : Int) - depth)))
  else if res = "0-1" then
    (if maximizing then Score.fin (-10000 + ((ai.max_depth : Int) - depth))
     else Score.fin (10000 - ((ai.max_depth : Int) - depth)))
  else Score.fin 0

/-- The side a node of `alpha_beta` maximizes for: the search's sign
convention treats White as the maximized player at `maximizing` nodes
and Black as the maximized player at minimizing nodes (the score at each
node is from the perspective of that side, the negamax convention of the
spec). -/
def maximized_side (maximizing : Bool) : Color :=
  if maximizing then Color.white else Color.black

/-- Whether a decisive result string is a win for the given colour. -/
def wins (res : String) (c : Color) : Prop :=
  (c = Color.white ∧ res = "1-0") ∨ (c = Color.black ∧ res = "0-1")

instance (res : String) (c : Color) : Decidable (wins res c) := by
  unfold wins; infer_instance

/-- The `for move in moves` loop of the maximizing branch of
`alpha_beta`, with `f` the recursive call at the child depth. -/
def ab_max_loop (f : Board → Score → Score → Score) (b : Board) :
    List Move → Score → Score → Score → Score
  | [], _, _, max_eval => max_eval
  | mv :: rest, alpha, beta, max_eval =>
    let eval_score := f (apply_move (clone b) mv) alpha beta
    let max_eval' := max max_eval eval_score
    let alpha' := max alpha eval_score
    if beta ≤ alpha' then max_eval' else ab_max_loop f b rest alpha' beta max_eval'

/-- The `for move in moves` loop of the minimizing branch of
`alpha_beta`. -/
def ab_min_loop (f : Board → Score → Score → Score) (b : Board) :
    List Move → Score → Score → Score → Score
  | [], _, _, min_eval => min_eval
  | mv :: rest, alpha, beta, min_eval =>
    let eval_score := f (apply_move (clone b) mv) alpha beta
    let min_eval' := min min_eval eval_score
    let beta' := min beta eval_score
    if beta' ≤ alpha then min_eval' else ab_min_loop f b rest alpha beta' min_eval'

/-- Source `AggressiveAlphaBetaAI.alpha_beta`, under the assumption that
the time limit never expires (the `return 0` timeout branch is
unreachable then); the node-counter increment is a no-op on the result.
At depth `d + 1` the Python test `depth <= 0` is false, so the static
evaluation arm appears only at depth `0`. -/
def alpha_beta (ai : AggressiveAlphaBetaAI) : Nat → Board → Score → Score → Bool → Score
  | 0, b, _, _, maximizing =>
    (match result b with
     | some res => decisive_score ai 0 res maximizing
     | none => Score.fin (evaluate_position ai b))
  | d + 1, b, alpha, beta, maximizing =>
    (match result b with
     | some res => decisive_score ai (d + 1) res maximizing
     | none =>
       let moves := generate_legal_moves b
       if moves = [] then
         (if is_in_check b b.turn then Score.fin (-10000 + ((ai.max_depth : Int) - (d + 1)))
          else Score.fin 0)
       else
         let ordered := order_moves ai b moves
         if maximizing then
           ab_max_loop (fun c a2 b2 => alpha_beta ai d c a2 b2 false) b ordered alpha beta
             Score.negInf
         else
           ab_min_loop (fun c a2 b2 => alpha_beta ai d c a2 b2 true) b ordered alpha beta
             Score.posInf)

/-- Modelled from the spec (section 8, alpha-beta equivalence): the
unpruned full minimax over the same game tree, the same move list, the
same evaluation and the same mate scoring as `alpha_beta`, written as
plain maximum/minimum folds with no window and no cutoff.  This is the
comparison definition for the refinement claim, not source code. -/
def minimax (ai : AggressiveAlphaBetaAI) : Nat → Board → Bool → Score
  | 0, b, maximizing =>
    (match result b with
     | some res => decisive_score ai 0 res maximizing
     | none => Score.fin (evaluate_position ai b))
  | d + 1, b, maximizing =>
    (match result b with
     | some res => decisive_score ai (d + 1) res maximizing
     | none =>
       let moves := generate_legal_moves b
       if moves = [] then
         (if is_in_check b b.turn then Score.fin (-10000 + ((ai.max_depth : Int) - (d + 1)))
          else Score.fin 0)
       else
         let ordered := order_moves ai b moves
         if maximizing then
           ordered.foldl (fun a mv => max a (minimax ai d (apply_move (clone b) mv) false))
             Score.negInf
         else
           ordered.foldl (fun a mv => min a (minimax ai d (apply_move (clone b) mv) true))
             Score.posInf)

/-- The root loop of `AggressiveAlphaBetaAI.get_move` (lines 50-63), with
`beta` fixed at `float("inf")` as in the source and the deadline test
modelled as never firing. -/
def root_loop (ai : AggressiveAlphaBetaAI) (b : Board) :
    List Move → Move → Score → Score → Move × Score
  | [], best_move, best_score, _ => (best_move, best_score)
  | mv :: rest, best_move, best_score, alpha =>
    let cl := apply_move (clone b) mv
    let score :=
      Score.neg (alpha_beta ai (ai.max_depth - 1) cl (Score.neg Score.posInf)
        (Score.neg alpha) false)
    let best_move' := if best_score < score then mv else best_move
    let best_score' := if best_score < score then score else best_score
    let alpha' := max alpha score
    root_loop ai b rest best_move' best_score' alpha'

/-- Source `AggressiveAlphaBetaAI.get_move`; the second component is the
state of the caller's board after the call.  The `headD` default is never
used: the surrounding branch guarantees the list is nonempty. -/
def get_move (ai : AggressiveAlphaBetaAI) (b : Board) : Option Move × Board :=
  let legal_moves := generate_legal_moves b
  if legal_moves = [] then (none, b)
  else if legal_moves.length = 1 then
    (some (legal_moves.headD (Move.mk (0, 0) (0, 0) none)), b)
  else
    let ordered := order_moves ai b legal_moves
    let best_move0 := legal_moves.headD (Move.mk (0, 0) (0, 0) none)
    ((root_loop ai b ordered best_move0 Score.negInf Score.negInf).1, b)

/-- The best negated child score found by the root loop of `get_move`
(the `best_score` variable after the loop), run on the full ordered legal
move list.  The initial `best_move` argument does not influence the
score. -/
def root_score (ai : AggressiveAlphaBetaAI) (b : Board) : Score :=
  (root_loop ai b (order_moves ai b (generate_legal_moves b)) (Move.mk (0, 0) (0, 0) none)
    Score.negInf Score.negInf).2

/-- The root value of the unpruned minimax: the maximum over the same
ordered root moves of the negated `minimax` value of the child, exactly
the quantity `get_move` computes when no branch is ever pruned. -/
def minimax_root_score (ai : AggressiveAlphaBetaAI) (b : Board) : Score :=
  (order_moves ai b (generate_legal_moves b)).foldl
    (fun a mv =>
      max a (Score.neg (minimax ai (ai.max_depth - 1) (apply_move (clone b) mv) false)))
    Score.negInf

/-- The back rank `["R", "N", "B", "Q", "K", "B", "N", "R"]` of
`Board._setup`. -/
def back_rank (c : Color) : List (Option Piece) :=
  [Kind.R, Kind.N, Kind.B, Kind.Q, Kind.K, Kind.B, Kind.N, Kind.R].map fun k => some ⟨c, k⟩

/-- The freshly constructed board of `Board.__init__` / `Board._setup`. -/
def initial_board : Board where
  board :=
    [back_rank Color.black,
     List.replicate 8 (some ⟨Color.black, Kind.P⟩),
     List.replicate 8 none,
     List.replicate 8 none,
     List.replicate 8 none,
     List.replicate 8 none,
     List.replicate 8 (some ⟨Color.white, Kind.P⟩),
     back_rank Color.white]
  turn := Color.white
  castling_K := true
  castling_Q := true
  castling_k := true
  castling_q := true
  en_passant := none
  halfmove_clock := 0
  fullmove_number := 1

/-- The Knuth-Moore fail-soft window specification: what an alpha-beta
value `g` computed in window `(alpha, beta)` says about the true minimax
value `v` of the same node: failing low it is an upper bound, failing
high a lower bound, and inside the window it is exact. -/
def km_spec (g v alpha beta : Score) : Prop :=
  (g ≤ alpha → v ≤ g) ∧ (beta ≤ g → g ≤ v) ∧ (alpha < g → g < beta → g = v)

/-- Well-formedness of the square array: 8 rows of 8 entries, as every
board constructed by `Board.__init__` and preserved by every write. -/
def wf_squares (bd : Squares) : Prop :=
  bd.length = 8 ∧ ∀ row ∈ bd, row.length = 8

instance (bd : Squares) : Decidable (wf_squares bd) := by
  unfold wf_squares; infer_instance

/-- The en-passant target, when present, is never on a back row — an
invariant of every state the engine constructs (`_apply_move` only ever
sets targets on rows 2 and 5). -/
def ep_row_ok (b : Board) : Prop :=
  b.en_passant.elim True fun rc => rc.1 ≠ 0 ∧ rc.1 ≠ 7

instance (b : Board) : Decidable (ep_row_ok b) :=
  match h : b.en_passant with
  | none => .isTrue (by simp [ep_row_ok, h])
  | some rc => decidable_of_iff (rc.1 ≠ 0 ∧ rc.1 ≠ 7) (by simp [ep_row_ok, h])

/-- No pawn stands on row 0 or row 7. -/
def no_pawn_back_rank (b : Board) : Prop :=
  ∀ r c : Int, (r = 0 ∨ r = 7) → ∀ p : Piece,
    board_get b.board r c = some p → p.kind ≠ Kind.P

/-- A decidable bounded reformulation of `no_pawn_back_rank`. -/
def back_rank_pawn_free (b : Board) : Prop :=
  ∀ n : Fin 8,
    ((board_get b.board 0 (n : Int)).all fun p => p.kind != Kind.P) = true ∧
    ((board_get b.board 7 (n : Int)).all fun p => p.kind != Kind.P) = true

instance (b : Board) : Decidable (back_rank_pawn_free b) := by
  unfold back_rank_pawn_free
  infer_instance

/-- An empty 8x8 square array, used to build small test positions. -/
def empty_squares : Squares :=
  List.replicate 8 (List.replicate 8 none)

/-- Places pieces on an empty array. -/
def place (ps : List (Int × Int × Piece)) : Squares :=
  ps.foldl (fun bd e => board_set bd e.1 e.2.1 (some e.2.2)) empty_squares

/-- A back-rank corner mate: black king a8, white queen b7, white king
c6, Black to move and checkmated. -/
def mate_board : Board where
  board := place
    [(0, 0, ⟨Color.black, Kind.K⟩), (1, 1, ⟨Color.white, Kind.Q⟩),
     (2, 2, ⟨Color.white, Kind.K⟩)]
  turn := Color.black
  castling_K := false
  castling_Q := false
  castling_k := false
  castling_q := false
  en_passant := none
  halfmove_clock := 0
  fullmove_number := 1

/-- A position where an en-passant capture is eligible: Black's d-pawn
just double-pushed from (1,3) to (3,3), so `en_passant = (2,3)`, and the
white pawn on (3,4) may capture to (2,3).  Kings are on their home
squares. -/
def ep_board : Board where
  board := place
    [(3, 4, ⟨Color.white, Kind.P⟩), (3, 3, ⟨Color.black, Kind.P⟩),
     (7, 4, ⟨Color.white, Kind.K⟩), (0, 4, ⟨Color.black, Kind.K⟩)]
  turn := Color.white
  castling_K := false
  castling_Q := false
  castling_k := false
  castling_q := false
  en_passant := some (2, 3)
  halfmove_clock := 0
  fullmove_number := 3

/-- The en-passant capture on `ep_board`. -/
def ep_move : Move := Move.mk (3, 4) (2, 3) none

/-- A position with Black to move and Black a queen ahead: white king
e1, black king e8, black queen e4. -/
def eval_board : Board where
  board := place
    [(0, 4, ⟨Color.black, Kind.K⟩), (4, 4, ⟨Color.black, Kind.Q⟩),
     (7, 4, ⟨Color.white, Kind.K⟩)]
  turn := Color.black
  castling_K := false
  castling_Q := false
  castling_k := false
  castling_q := false
  en_passant := none
  halfmove_clock := 0
  fullmove_number := 10

/-- A kings-only position, White to move. -/
def kings_board : Board where
  board := place [(7, 4, ⟨Color.white, Kind.K⟩), (0, 4, ⟨Color.black, Kind.K⟩)]
  turn := Color.white
  castling_K := false
  castling_Q := false
  castling_k := false
  castling_q := false
  en_passant := none
  halfmove_clock := 0
  fullmove_number := 1

theorem result_values {b : Board} {res : String} (h : result b = some res) :
    res = "1-0" ∨ res = "0-1" ∨ res = "1/2-1/2" := by
  unfold result at h
  split_ifs at h <;> simp_all

/-- C7: a move is in `generate_legal_moves` exactly when it is
pseudo-legal and its simulated application on a clone leaves the mover's
own king unattacked. -/
theorem C7_legal_moves_king_safe (b : Board) (mv : Move) :
    mv ∈ generate_legal_moves b ↔
      mv ∈ generate_pseudo_legal_moves b ∧
        is_in_check (apply_move (clone b) mv) b.turn = false := by
  simp [generate_legal_moves, List.mem_filter, is_legal, Bool.not_eq_true']

set_option maxRecDepth 1000000 in
/-- C8: the freshly constructed initial position has White to move, all
castling rights, no en-passant target, and exactly 20 legal moves. -/
theorem C8_initial_position_twenty_moves :
    initial_board.turn = Color.white ∧
    initial_board.castling_K = true ∧ initial_board.castling_Q = true ∧
    initial_board.castling_k = true ∧ initial_board.castling_q = true ∧
    initial_board.en_passant = none ∧
    (generate_legal_moves initial_board).length = 20 :=
  ⟨rfl, rfl, rfl, rfl, rfl, rfl, by decide⟩

/-- C5: `result` is `none` exactly when the side to move has a legal
move; with no legal move it is the draw string when not in check, and
otherwise the win for the side not to move. -/
theorem C5_result_classification (b : Board) :
    (result b = none ↔ ∃ mv, mv ∈ generate_legal_moves b) ∧
    (generate_legal_moves b = [] → is_in_check b b.turn = false →
      result b = some "1/2-1/2") ∧
    (generate_legal_moves b = [] → is_in_check b b.turn = true → b.turn = Color.black →
      result b = some "1-0") ∧
    (generate_legal_moves b = [] → is_in_check b b.turn = true → b.turn = Color.white →
      result b = some "0-1") := by
  rcases hl : generate_legal_moves b with _ | ⟨m, ms⟩
  · have hr : result b =
        (if is_in_check b b.turn then
          (if b.turn = Color.black then some "1-0" else some "0-1")
         else some "1/2-1/2") := by
      simp [result, hl]
    rw [hr]
    cases hc : is_in_check b b.turn <;> cases ht : b.turn <;> simp [hl, hc, ht]
  · refine ⟨?_, by simp [hl], by simp [hl], by simp [hl]⟩
    constructor
    · intro _; exact ⟨m, by simp [hl]⟩
    · intro _; simp [result, hl]

set_option maxRecDepth 1000000 in
/-- C5 witness: the classification applied to a concrete checkmate (the
corner mate of `mate_board`) and to a concrete ongoing position. -/
theorem C5_result_classification_witness :
    result mate_board = some "1-0" ∧ result kings_board = none := by
  constructor
  · exact (C5_result_classification mate_board).2.2.1 (by decide) (by decide) (by decide)
  · exact (C5_result_classification kings_board).1.mpr
      ⟨Move.mk (7, 4) (6, 4) none, by decide⟩

/-- C6: `make_move` on a move outside the legal list returns `false` and
leaves every component of the state unchanged; on a legal move it applies
the move and returns `true`. -/
theorem C6_make_move_guard (b : Board) (mv : Move) :
    (mv ∉ generate_legal_moves b →
      make_move b mv = (false, b) ∧
      (make_move b mv).2.board = b.board ∧
      (make_move b mv).2.turn = b.turn ∧
      (make_move b mv).2.castling_K = b.castling_K ∧
      (make_move b mv).2.castling_Q = b.castling_Q ∧
      (make_move b mv).2.castling_k = b.castling_k ∧
      (make_move b mv).2.castling_q = b.castling_q ∧
      (make_move b mv).2.en_passant = b.en_passant ∧
      (make_move b mv).2.halfmove_clock = b.halfmove_clock ∧
      (make_move b mv).2.fullmove_number = b.fullmove_number) ∧
    (mv ∈ generate_legal_moves b → make_move b mv = (true, apply_move b mv)) := by
  by_cases h : mv ∈ generate_legal_moves b <;> simp [make_move, h]

set_option maxRecDepth 1000000 in
/-- C6 witness: a concrete illegal move is rejected with the state
unchanged, and a concrete legal move is applied with return `true`. -/
theorem C6_make_move_guard_witness :
    make_move kings_board (Move.mk (0, 0) (0, 0) none) = (false, kings_board) ∧
    make_move kings_board (Move.mk (7, 4) (6, 4) none)
      = (true, apply_move kings_board (Move.mk (7, 4) (6, 4) none)) := by
  constructor
  · exact ((C6_make_move_guard kings_board (Move.mk (0, 0) (0, 0) none)).1 (by decide)).1
  · exact (C6_make_move_guard kings_board (Move.mk (7, 4) (6, 4) none)).2 (by decide)

/-- C9: `get_move` never mutates the caller's board: the state of the
board after the call is the state before it, in every component. -/
theorem C9_get_move_frame (ai : AggressiveAlphaBetaAI) (b : Board) :
    (get_move ai b).2 = b ∧
    (get_move ai b).2.board = b.board ∧
    (get_move ai b).2.turn = b.turn ∧
    (get_move ai b).2.castling_K = b.castling_K ∧
    (get_move ai b).2.castling_Q = b.castling_Q ∧
    (get_move ai b).2.castling_k = b.castling_k ∧
    (get_move ai b).2.castling_q = b.castling_q ∧
    (get_move ai b).2.en_passant = b.en_passant ∧
    (get_move ai b).2.halfmove_clock = b.halfmove_clock ∧
    (get_move ai b).2.fullmove_number = b.fullmove_number := by
  have h : (get_move ai b).2 = b := by
    by_cases h1 : generate_legal_moves b = []
    · simp [get_move, h1]
    · by_cases h2 : (generate_legal_moves b).length = 1
      · simp [get_move, h1, h2]
      · simp [get_move, h1, h2]
  refine ⟨h, ?_, ?_, ?_, ?_, ?_, ?_, ?_, ?_, ?_⟩ <;> rw [h]

set_option maxRecDepth 1000000 in
/-- C1 (evaluation of the code at the failing input): on `ep_board` the
en-passant capture is eligible and legal, yet after `apply_move` the
double-pushed black pawn is still standing on (3,3), the square behind
the destination; the code instead cleared (1,3), the already-empty origin
square of the double push.  The claim (and the source's own comment)
say the pawn on (3,3) is the one removed. -/
theorem C1_en_passant_code_behavior :
    ep_board.en_passant = some (2, 3) ∧
    ep_move ∈ generate_legal_moves ep_board ∧
    piece_at (apply_move ep_board ep_move) (2, 3) = some ⟨Color.white, Kind.P⟩ ∧
    piece_at (apply_move ep_board ep_move) (3, 4) = none ∧
    piece_at (apply_move ep_board ep_move) (3, 3) = some ⟨Color.black, Kind.P⟩ ∧
    piece_at ep_board (1, 3) = none := by
  refine ⟨rfl, by decide, by decide, by decide, by decide, by decide⟩

/-- C2: at a node whose `result` is decisive, `alpha_beta` returns the
mate score `10000 - (max_depth - depth)` when the result is a win for
the side the node maximizes for (`maximized_side`), its negation when it
is a loss for that side, and `0` on a draw; the mate score grows strictly
with the remaining depth, so shorter mates score higher. -/
theorem C2_decisive_mate_scores (ai : AggressiveAlphaBetaAI) (depth : Nat) (b : Board)
    (alpha beta : Score) (maximizing : Bool) (res : String) (h : result b = some res) :
    alpha_beta ai depth b alpha beta maximizing =
      (if res = "1/2-1/2" then Score.fin 0
       else if wins res (maximized_side maximizing) then
         Score.fin (10000 - ((ai.max_depth : Int) - depth))
       else Score.fin (-(10000 - ((ai.max_depth : Int) - depth)))) ∧
    (∀ d d' : Nat, d < d' →
      10000 - ((ai.max_depth : Int) - d) < 10000 - ((ai.max_depth : Int) - d')) := by
  constructor
  · have harm : alpha_beta ai depth b alpha beta maximizing
        = decisive_score ai depth res maximizing := by
      cases depth <;> simp [alpha_beta, h]
    rw [harm]
    rcases result_values h with rfl | rfl | rfl <;> cases maximizing <;>
      simp [decisive_score, wins, maximized_side] <;> omega
  · intro d d' hdd
    omega

set_option maxRecDepth 1000000 in
/-- C2 witness: on the concrete checkmate `mate_board` (result `"1-0"`),
a maximizing node at remaining depth 2 under `max_depth = 4` returns
`10000 - (4 - 2) = 9998`. -/
theorem C2_decisive_mate_scores_witness :
    alpha_beta ⟨4⟩ 2 mate_board Score.negInf Score.posInf true = Score.fin 9998 := by
  have h := (C2_decisive_mate_scores ⟨4⟩ 2 mate_board Score.negInf Score.posInf true "1-0"
    (by decide)).1
  rw [h]
  decide

theorem mat_fold_spec (b : Board) (l : List (Int × Int)) (acc : Int × Int) :
    l.foldl (mat_step b) acc =
      (acc.1 + (l.filterMap fun rc =>
        match board_get b.board rc.1 rc.2 with
        | some p => if p.color = Color.white then some (piece_value p.kind) else none
        | none => none).sum,
       acc.2 + (l.filterMap fun rc =>
        match board_get b.board rc.1 rc.2 with
        | some p => if p.color = Color.black then some (piece_value p.kind) else none
        | none => none).sum) := by
  induction l generalizing acc with
  | nil => simp
  | cons rc rest ih =>
    rcases hg : board_get b.board rc.1 rc.2 with _ | p
    · simp only [List.foldl_cons, List.filterMap_cons, hg, mat_step]
      rw [ih]
    · rcases p with ⟨pc, pk⟩
      cases pc
      · simp only [List.foldl_cons, List.filterMap_cons, hg, mat_step]
        rw [ih]
        simp [add_assoc]
      · simp only [List.foldl_cons, List.filterMap_cons, hg, mat_step]
        rw [ih]
        simp [add_assoc]

/-- C3 (the claim as stated is false on the code; this is the nearby
true statement): the material totals accumulated by
`evaluate_position`'s scan are White's total material and Black's total
material — the difference seeding the score is White minus Black
regardless of the side to move, not mover-relative; the totals depend
only on the squares, never on `turn`. -/
theorem C3_material_is_white_minus_black (b : Board) :
    (material_totals b).1 = side_material b Color.white ∧
    (material_totals b).2 = side_material b Color.black ∧
    (∀ b' : Board, b'.board = b.board → material_totals b' = material_totals b) ∧
    (∀ ai : AggressiveAlphaBetaAI,
      |side_material b Color.white - side_material b Color.black| ≤ 500 →
      evaluate_position ai b =
        (side_material b Color.white - side_material b Color.black) +
          ((generate_legal_moves b).length : Int) * 5) := by
  have hw : (material_totals b).1 = side_material b Color.white := by
    rw [material_totals, mat_fold_spec]
    simp [side_material]
  have hb : (material_totals b).2 = side_material b Color.black := by
    rw [material_totals, mat_fold_spec]
    simp [side_material]
  refine ⟨hw, hb, ?_, ?_⟩
  · intro b' hbd
    unfold material_totals mat_step
    rw [hbd]
  · intro ai h
    simp only [evaluate_position]
    rw [hw, hb, if_neg (not_lt.mpr h)]

set_option maxRecDepth 1000000 in
/-- C3 witness: the amended statement applied at concrete positions,
discharging the board-equality hypothesis of the turn-independence
conjunct at a turn-flipped copy, and the no-aggression-bonus bound
on a bare-kings position for the `evaluate_position` decomposition. -/
theorem C3_material_is_white_minus_black_witness :
    (material_totals eval_board).1 = side_material eval_board Color.white ∧
    material_totals { eval_board with turn := Color.white } = material_totals eval_board ∧
    evaluate_position ⟨4⟩ kings_board =
      (side_material kings_board Color.white - side_material kings_board Color.black) +
        ((generate_legal_moves kings_board).length : Int) * 5 := by
  refine ⟨?_, ?_, ?_⟩
  · exact (C3_material_is_white_minus_black eval_board).1
  · exact (C3_material_is_white_minus_black eval_board).2.2.1 _ rfl
  · exact (C3_material_is_white_minus_black kings_board).2.2.2 ⟨4⟩ (by decide)

set_option maxRecDepth 1000000 in
/-- C3 counterexample: on `eval_board` Black is to move and Black is a
full queen ahead in material, yet `evaluate_position` is negative — the
evaluator is not mover-relative as the claim states, it scores from
White's side. -/
theorem C3_mover_perspective_counterexample :
    eval_board.turn = Color.black ∧
    side_material eval_board Color.white < side_material eval_board Color.black ∧
    evaluate_position ⟨4⟩ eval_board < 0 := by
  refine ⟨rfl, by decide, by decide⟩

theorem in_bounds_iff {r c : Int} : in_bounds r c = true ↔ 0 ≤ r ∧ r < 8 ∧ 0 ≤ c ∧ c < 8 := by
  simp only [in_bounds, Bool.and_eq_true, decide_eq_true_eq]
  tauto

theorem board_get_some_in_bounds {bd : Squares} {r c : Int} {p : Piece}
    (h : board_get bd r c = some p) : in_bounds r c = true := by
  by_contra hb
  rw [board_get, if_neg hb] at h
  exact Option.noConfusion h

theorem wf_squares_set {bd : Squares} (h : wf_squares bd) (r c : Int) (p : Option Piece) :
    wf_squares (board_set bd r c p) := by
  unfold board_set
  split_ifs with hb
  · refine ⟨by simp [List.length_set, h.1], ?_⟩
    intro row hrow
    rcases List.mem_or_eq_of_mem_set hrow with h1 | h1
    · exact h.2 row h1
    · subst h1
      rw [List.length_set]
      have h8 := in_bounds_iff.mp hb
      have hr : r.toNat < bd.length := by
        have h1 := h.1
        omega
      rw [List.getElem?_eq_getElem hr, Option.getD_some]
      exact h.2 _ (bd.getElem_mem hr)
  · exact h

theorem board_get_set {bd : Squares} (hwf : wf_squares bd) (r c : Int) (p : Option Piece)
    (r0 c0 : Int) :
    board_get (board_set bd r c p) r0 c0 =
      if r0 = r ∧ c0 = c ∧ in_bounds r c = true then p else board_get bd r0 c0 := by
  by_cases hb : in_bounds r c = true
  · have h8 := in_bounds_iff.mp hb
    have hr : r.toNat < bd.length := by have h1 := hwf.1; omega
    have hrowlen : (bd[r.toNat]?.getD []).length = 8 := by
      rw [List.getElem?_eq_getElem hr, Option.getD_some]
      exact hwf.2 _ (bd.getElem_mem hr)
    by_cases heq : r0 = r ∧ c0 = c
    · obtain ⟨rfl, rfl⟩ := heq
      rw [if_pos ⟨rfl, rfl, hb⟩]
      unfold board_get board_set
      rw [if_pos hb, if_pos hb, List.getElem?_set_eq hr, Option.getD_some,
        List.getElem?_set_eq (by omega), Option.getD_some]
    · rw [if_neg fun hh => heq ⟨hh.1, hh.2.1⟩]
      unfold board_get board_set
      rw [if_pos hb]
      by_cases hb0 : in_bounds r0 c0 = true
      · have h80 := in_bounds_iff.mp hb0
        rw [if_pos hb0, if_pos hb0]
        by_cases hrr : r0.toNat = r.toNat
        · have hr0r : r0 = r := by omega
          subst hr0r
          have hcc : c0 ≠ c := fun hE => heq ⟨rfl, hE⟩
          rw [List.getElem?_set_eq hr, Option.getD_some,
            List.getElem?_set_ne (by omega)]
        · rw [List.getElem?_set_ne fun hE => hrr hE.symm]
      · rw [if_neg hb0, if_neg hb0]
  · rw [if_neg fun hh => hb hh.2.2]
    unfold board_set
    rw [if_neg hb]

theorem no_pawn_back_rank_of {b : Board} (h : back_rank_pawn_free b) :
    no_pawn_back_rank b := by
  intro r c hr p hp hk
  have hb := board_get_some_in_bounds hp
  have h8 := in_bounds_iff.mp hb
  have hc : c = ((⟨c.toNat, by omega⟩ : Fin 8) : Int) := by
    simp [Int.toNat_of_nonneg h8.2.2.1]
  have := h ⟨c.toNat, by omega⟩
  rcases hr with rfl | rfl
  · rw [← hc, hp] at this
    simp [hk] at this
  · rw [← hc, hp] at this
    simp [hk] at this

theorem promos_ne_P : ∀ k ∈ promos, k ≠ Kind.P := by decide

theorem step_move_mem {bd : Squares} {enemy : Color} {r c : Int} {d : Int × Int} {mv : Move}
    (h : mv ∈ step_move bd enemy r c d) : mv.promotion = none ∧ mv.start = (r, c) := by
  unfold step_move at h
  by_cases h1 : in_bounds (r + d.1) (c + d.2) = true
  · rw [if_pos h1] at h
    rcases hg : board_get bd (r + d.1) (c + d.2) with _ | t <;> rw [hg] at h <;>
      dsimp only at h
    · simp at h
      subst h
      exact ⟨rfl, rfl⟩
    · split_ifs at h with h2
      · simp at h
        subst h
        exact ⟨rfl, rfl⟩
      · simp at h
  · rw [if_neg h1] at h
    simp at h

theorem ray_go_mem {bd : Squares} {enemy : Color} {sq : Int × Int} {dr dc : Int} :
    ∀ {fuel : Nat} {nr nc : Int} {mv : Move},
      mv ∈ ray_go bd enemy sq dr dc fuel nr nc → mv.promotion = none ∧ mv.start = sq := by
  intro fuel
  induction fuel with
  | zero => intro nr nc mv h; simp [ray_go] at h
  | succ n ih =>
    intro nr nc mv h
    unfold ray_go at h
    by_cases h1 : in_bounds nr nc = true
    · rw [if_pos h1] at h
      rcases hg : board_get bd nr nc with _ | t <;> rw [hg] at h <;> dsimp only at h
      · rcases List.mem_cons.mp h with rfl | h2
        · exact ⟨rfl, rfl⟩
        · exact ih h2
      · split_ifs at h with h2
        · simp at h
          subst h
          exact ⟨rfl, rfl⟩
        · simp at h
    · rw [if_neg h1] at h
      simp at h

theorem castle_moves_mem {b : Board} {color : Color} {mv : Move}
    (h : mv ∈ castle_moves b color) :
    mv.promotion = none ∧
      (mv.start = ((7 : Int), (4 : Int)) ∨ mv.start = ((0 : Int), (4 : Int))) := by
  unfold castle_moves at h
  split_ifs at h <;> simp at h <;>
    first
    | (rcases h with h | h <;> subst h <;> simp)
    | (subst h; simp)

/-- Shape facts about every move yielded by `_piece_moves`: promotions
appear only on pawn moves from the generating square onto a back row and
carry one of the four promotion kinds; every yield starts at the
generating square except the hardcoded castling yields; and a pawn yield
onto a back row always carries a promotion provided the en-passant
target is not on a back row. -/
theorem piece_moves_spec {b : Board} {sq : Int × Int} {p : Piece} {ao : Bool} {mv : Move}
    (h : mv ∈ piece_moves b sq p ao) :
    (∀ k, mv.promotion = some k →
      p.kind = Kind.P ∧ mv.start = sq ∧ (mv.stop.1 = 0 ∨ mv.stop.1 = 7) ∧ k ∈ promos) ∧
    (mv.start = sq ∨
      (mv.promotion = none ∧
        (mv.start = ((7 : Int), (4 : Int)) ∨ mv.start = ((0 : Int), (4 : Int))))) ∧
    (p.kind = Kind.P → (mv.stop.1 = 0 ∨ mv.stop.1 = 7) → ep_row_ok b →
      mv.promotion ≠ none) := by
  obtain ⟨r, c⟩ := sq
  obtain ⟨pc, pk⟩ := p
  cases pk
  case P =>
    simp only [piece_moves] at h
    set f : Int := if pc = Color.white then -1 else 1 with hf
    set srk : Int := if pc = Color.white then 6 else 1 with hsrk
    set e : Color := if pc = Color.white then Color.black else Color.white with he
    have hfs : (f = -1 ∧ srk = 6) ∨ (f = 1 ∧ srk = 1) := by
      cases pc <;> simp [hf, hsrk]
    rcases List.mem_append.mp h with hp | hp
    · -- pushes
      by_cases hcond :
          (in_bounds (r + f) c && !ao && (board_get b.board (r + f) c).isNone) = true
      · rw [if_pos hcond] at hp
        rcases List.mem_append.mp hp with hs | hd
        · -- single push
          by_cases hrow : r + f = 0 ∨ r + f = 7
          · rw [if_pos hrow] at hs
            rcases List.mem_map.mp hs with ⟨k, hk, rfl⟩
            refine ⟨?_, Or.inl rfl, fun _ _ _ => by simp⟩
            intro k' hk'
            simp at hk'
            subst hk'
            exact ⟨rfl, rfl, by simpa using hrow, hk⟩
          · rw [if_neg hrow] at hs
            simp at hs
            subst hs
            refine ⟨by intro k hk; simp at hk, Or.inl rfl, ?_⟩
            intro _ hr2 _
            exact absurd (by simpa using hr2) hrow
        · -- double push
          by_cases h2 : r = srk
          · rw [if_pos h2] at hd
            by_cases h3 : (board_get b.board (r + 2 * f) c).isNone = true
            · rw [if_pos h3] at hd
              simp at hd
              subst hd
              refine ⟨by intro k hk; simp at hk, Or.inl rfl, ?_⟩
              intro _ hr2 _
              have hr3 : r + 2 * f = 0 ∨ r + 2 * f = 7 := by simpa using hr2
              rcases hfs with ⟨hf1, hs1⟩ | ⟨hf1, hs1⟩ <;> omega
            · rw [if_neg h3] at hd
              simp at hd
          · rw [if_neg h2] at hd
            simp at hd
      · rw [if_neg hcond] at hp
        simp at hp
    · -- captures and en passant
      rcases List.mem_flatMap.mp hp with ⟨dc, hdc, hcc⟩
      by_cases h1 : in_bounds (r + f) (c + dc) = true
      · rw [if_pos h1] at hcc
        rcases List.mem_append.mp hcc with hcap | hep
        · rcases hg : board_get b.board (r + f) (c + dc) with _ | t <;>
            rw [hg] at hcap <;> dsimp only at hcap
          · simp at hcap
          · by_cases h2 : t.color = e
            · rw [if_pos h2] at hcap
              by_cases hrow : r + f = 0 ∨ r + f = 7
              · rw [if_pos hrow] at hcap
                rcases List.mem_map.mp hcap with ⟨k, hk, rfl⟩
                refine ⟨?_, Or.inl rfl, fun _ _ _ => by simp⟩
                intro k' hk'
                simp at hk'
                subst hk'
                exact ⟨rfl, rfl, by simpa using hrow, hk⟩
              · rw [if_neg hrow] at hcap
                simp at hcap
                subst hcap
                refine ⟨by intro k hk; simp at hk, Or.inl rfl, ?_⟩
                intro _ hr2 _
                exact absurd (by simpa using hr2) hrow
            · rw [if_neg h2] at hcap
              simp at hcap
        · by_cases h2 : b.en_passant = some (r + f, c + dc)
          · rw [if_pos h2] at hep
            simp at hep
            subst hep
            refine ⟨by intro k hk; simp at hk, Or.inl rfl, ?_⟩
            intro _ hr2 hepok
            unfold ep_row_ok at hepok
            rw [h2] at hepok
            simp at hepok
            have hr3 : r + f = 0 ∨ r + f = 7 := by simpa using hr2
            omega
          · rw [if_neg h2] at hep
            simp at hep
      · rw [if_neg h1] at hcc
        simp at hcc
  case N =>
    simp only [piece_moves] at h
    rcases List.mem_flatMap.mp h with ⟨d, _, hd⟩
    obtain ⟨h1, h2⟩ := step_move_mem hd
    exact ⟨by intro k hk; rw [h1] at hk; exact Option.noConfusion hk, Or.inl h2,
      by intro hk; exact absurd hk (by simp)⟩
  case B =>
    simp only [piece_moves] at h
    rcases List.mem_flatMap.mp h with ⟨d, _, hd⟩
    obtain ⟨h1, h2⟩ := ray_go_mem hd
    exact ⟨by intro k hk; rw [h1] at hk; exact Option.noConfusion hk, Or.inl h2,
      by intro hk; exact absurd hk (by simp)⟩
  case R =>
    simp only [piece_moves] at h
    rcases List.mem_flatMap.mp h with ⟨d, _, hd⟩
    obtain ⟨h1, h2⟩ := ray_go_mem hd
    exact ⟨by intro k hk; rw [h1] at hk; exact Option.noConfusion hk, Or.inl h2,
      by intro hk; exact absurd hk (by simp)⟩
  case Q =>
    simp only [piece_moves] at h
    rcases List.mem_flatMap.mp h with ⟨d, _, hd⟩
    obtain ⟨h1, h2⟩ := ray_go_mem hd
    exact ⟨by intro k hk; rw [h1] at hk; exact Option.noConfusion hk, Or.inl h2,
      by intro hk; exact absurd hk (by simp)⟩
  case K =>
    simp only [piece_moves] at h
    rcases List.mem_append.mp h with hd | hcm
    · rcases List.mem_flatMap.mp hd with ⟨d, _, hd2⟩
      obtain ⟨h1, h2⟩ := step_move_mem hd2
      exact ⟨by intro k hk; rw [h1] at hk; exact Option.noConfusion hk, Or.inl h2,
        by intro hk; exact absurd hk (by simp)⟩
    · split_ifs at hcm with hao
      · simp at hcm
      · obtain ⟨h1, h2⟩ := castle_moves_mem hcm
        exact ⟨by intro k hk; rw [h1] at hk; exact Option.noConfusion hk, Or.inr ⟨h1, h2⟩,
          by intro hk; exact absurd hk (by simp)⟩

/-- Peeling one `board_set` off a `board_get`: the read either hits the
written square (then in bounds, with the written value) or reads the
unmodified array (and the squares differ or the write was out of
bounds). -/
theorem board_get_set_cases {bd : Squares} (hwf : wf_squares bd) {r c : Int}
    {p : Option Piece} {r0 c0 : Int} {v : Option Piece}
    (h : board_get (board_set bd r c p) r0 c0 = v) :
    (r0 = r ∧ c0 = c ∧ in_bounds r c = true ∧ p = v) ∨
    (¬(r0 = r ∧ c0 = c ∧ in_bounds r c = true) ∧ board_get bd r0 c0 = v) := by
  rw [board_get_set hwf] at h
  split_ifs at h with hc
  · exact Or.inl ⟨hc.1, hc.2.1, hc.2.2, h⟩
  · exact Or.inr ⟨hc, h⟩

/-- The square updates of `_apply_move` cannot place a pawn on a back
row, for any move whose promotion kind is not a pawn and whose moving
pawn, when headed to a back row, carries a promotion.  The generator
guarantees both side conditions for every yielded move. -/
theorem moved_board_no_pawn (b : Board) (mv : Move) (hwf : wf_squares b.board)
    (hpb : no_pawn_back_rank b)
    (hpromo : ∀ k, mv.promotion = some k → k ≠ Kind.P)
    (hpawn : ∀ p, board_get b.board mv.start.1 mv.start.2 = some p → p.kind = Kind.P →
      (mv.stop.1 = 0 ∨ mv.stop.1 = 7) → mv.promotion ≠ none) :
    ∀ r0 c0 : Int, (r0 = 0 ∨ r0 = 7) → ∀ q, board_get (moved_board b mv) r0 c0 = some q →
      q.kind ≠ Kind.P := by
  obtain ⟨⟨sr, sc⟩, ⟨er, ec⟩, promo⟩ := mv
  dsimp only at hpromo hpawn
  intro r0 c0 hr0 q hq hqP
  simp only [moved_board, ep_step] at hq
  rcases hpc : board_get b.board sr sc with _ | p <;> rw [hpc] at hq <;> dsimp only at hq
  · -- no piece on the start square: only empty writes happen
    rcases board_get_set_cases (wf_squares_set hwf _ _ _) hq with ⟨-, -, -, hv⟩ | ⟨-, hq⟩
    · exact Option.noConfusion hv
    rcases board_get_set_cases hwf hq with ⟨-, -, -, hv⟩ | ⟨-, hq⟩
    · exact Option.noConfusion hv
    exact hpb r0 c0 hr0 q hq hqP
  · rcases promo with _ | k
    · -- no promotion
      dsimp only at hq
      by_cases hk : p.kind = Kind.P
      · -- pawn: the castling branch is off, and landing on a back row is
        -- excluded by hpawn
        have hnotK : ¬(p.kind = Kind.K ∧ (ec - sc).natAbs = 2) := by
          rintro ⟨h1, -⟩
          rw [hk] at h1
          exact Kind.noConfusion h1
        rw [if_neg hnotK] at hq
        by_cases hE : p.kind = Kind.P ∧ b.en_passant = some (er, ec) ∧
            board_get b.board er ec = none
        · rw [if_pos hE] at hq
          dsimp only at hq
          rcases board_get_set_cases (wf_squares_set (wf_squares_set hwf _ _ _) _ _ _) hq
            with ⟨-, -, -, hv⟩ | ⟨-, hq⟩
          · exact Option.noConfusion hv
          rcases board_get_set_cases (wf_squares_set hwf _ _ _) hq
            with ⟨hr1, -, -, hv⟩ | ⟨-, hq⟩
          · exact hpawn p hpc hk (hr1 ▸ hr0) rfl
          rcases board_get_set_cases hwf hq with ⟨-, -, -, hv⟩ | ⟨-, hq⟩
          · exact Option.noConfusion hv
          exact hpb r0 c0 hr0 q hq hqP
        · rw [if_neg hE] at hq
          dsimp only at hq
          rcases board_get_set_cases (wf_squares_set hwf _ _ _) hq
            with ⟨-, -, -, hv⟩ | ⟨-, hq⟩
          · exact Option.noConfusion hv
          rcases board_get_set_cases hwf hq
            with ⟨hr1, -, -, hv⟩ | ⟨-, hq⟩
          · exact hpawn p hpc hk (hr1 ▸ hr0) rfl
          exact hpb r0 c0 hr0 q hq hqP
      · -- non-pawn, no promotion
        have hnE : ¬(p.kind = Kind.P ∧ b.en_passant = some (er, ec) ∧
            board_get b.board er ec = none) := fun h => hk h.1
        rw [if_neg hnE] at hq
        dsimp only at hq
        by_cases hcast : p.kind = Kind.K ∧ (ec - sc).natAbs = 2
        · rw [if_pos hcast] at hq
          by_cases hec : ec = 6
          · rw [if_pos hec] at hq
            rcases board_get_set_cases
                (wf_squares_set (wf_squares_set (wf_squares_set hwf _ _ _) _ _ _) _ _ _)
                hq with ⟨-, -, -, hv⟩ | ⟨-, hq⟩
            · exact Option.noConfusion hv
            rcases board_get_set_cases (wf_squares_set (wf_squares_set hwf _ _ _) _ _ _) hq
              with ⟨hr1, -, -, hv⟩ | ⟨-, hq⟩
            · -- the rook value grabbed from (er, 7)
              rcases board_get_set_cases (wf_squares_set hwf _ _ _) hv
                with ⟨-, -, -, hv2⟩ | ⟨-, hv⟩
              · exact Option.noConfusion hv2
              rcases board_get_set_cases hwf hv with ⟨-, -, -, hv2⟩ | ⟨-, hv⟩
              · cases hv2
                exact hk hqP
              exact hpb er 7 (hr1 ▸ hr0) q hv hqP
            rcases board_get_set_cases (wf_squares_set hwf _ _ _) hq
              with ⟨-, -, -, hv⟩ | ⟨-, hq⟩
            · exact Option.noConfusion hv
            rcases board_get_set_cases hwf hq with ⟨-, -, -, hv⟩ | ⟨-, hq⟩
            · cases hv
              exact hk hqP
            exact hpb r0 c0 hr0 q hq hqP
          · rw [if_neg hec] at hq
            rcases board_get_set_cases
                (wf_squares_set (wf_squares_set (wf_squares_set hwf _ _ _) _ _ _) _ _ _)
                hq with ⟨-, -, -, hv⟩ | ⟨-, hq⟩
            · exact Option.noConfusion hv
            rcases board_get_set_cases (wf_squares_set (wf_squares_set hwf _ _ _) _ _ _) hq
              with ⟨hr1, -, -, hv⟩ | ⟨-, hq⟩
            · -- the rook value grabbed from (er, 0)
              rcases board_get_set_cases (wf_squares_set hwf _ _ _) hv
                with ⟨-, -, -, hv2⟩ | ⟨-, hv⟩
              · exact Option.noConfusion hv2
              rcases board_get_set_cases hwf hv with ⟨-, -, -, hv2⟩ | ⟨-, hv⟩
              · cases hv2
                exact hk hqP
              exact hpb er 0 (hr1 ▸ hr0) q hv hqP
            rcases board_get_set_cases (wf_squares_set hwf _ _ _) hq
              with ⟨-, -, -, hv⟩ | ⟨-, hq⟩
            · exact Option.noConfusion hv
            rcases board_get_set_cases hwf hq with ⟨-, -, -, hv⟩ | ⟨-, hq⟩
            · cases hv
              exact hk hqP
            exact hpb r0 c0 hr0 q hq hqP
        · rw [if_neg hcast] at hq
          rcases board_get_set_cases (wf_squares_set hwf _ _ _) hq
            with ⟨-, -, -, hv⟩ | ⟨-, hq⟩
          · exact Option.noConfusion hv
          rcases board_get_set_cases hwf hq with ⟨-, -, -, hv⟩ | ⟨-, hq⟩
          · cases hv
            exact hk hqP
          exact hpb r0 c0 hr0 q hq hqP
    · -- promotion present
      dsimp only at hq
      by_cases hk : p.kind = Kind.P
      · rw [if_pos hk] at hq
        have hnotK : ¬(p.kind = Kind.K ∧ (ec - sc).natAbs = 2) := by
          rintro ⟨h1, -⟩
          rw [hk] at h1
          exact Kind.noConfusion h1
        rw [if_neg hnotK] at hq
        by_cases hE : p.kind = Kind.P ∧ b.en_passant = some (er, ec) ∧
            board_get b.board er ec = none
        · rw [if_pos hE] at hq
          dsimp only at hq
          rcases board_get_set_cases
              (wf_squares_set (wf_squares_set (wf_squares_set hwf _ _ _) _ _ _) _ _ _)
              hq with ⟨-, -, -, hv⟩ | ⟨hneg, hq⟩
          · cases hv
            exact hpromo k rfl hqP
          rcases board_get_set_cases (wf_squares_set (wf_squares_set hwf _ _ _) _ _ _) hq
            with ⟨-, -, -, hv⟩ | ⟨-, hq⟩
          · exact Option.noConfusion hv
          rcases board_get_set_cases (wf_squares_set hwf _ _ _) hq
            with ⟨hr1, hc1, hinb, hv⟩ | ⟨-, hq⟩
          · exact absurd ⟨hr1, hc1, hinb⟩ hneg
          rcases board_get_set_cases hwf hq with ⟨-, -, -, hv⟩ | ⟨-, hq⟩
          · exact Option.noConfusion hv
          exact hpb r0 c0 hr0 q hq hqP
        · rw [if_neg hE] at hq
          dsimp only at hq
          rcases board_get_set_cases
              (wf_squares_set (wf_squares_set hwf _ _ _) _ _ _)
              hq with ⟨-, -, -, hv⟩ | ⟨hneg, hq⟩
          · cases hv
            exact hpromo k rfl hqP
          rcases board_get_set_cases (wf_squares_set hwf _ _ _) hq
            with ⟨-, -, -, hv⟩ | ⟨-, hq⟩
          · exact Option.noConfusion hv
          rcases board_get_set_cases hwf hq
            with ⟨hr1, hc1, hinb, hv⟩ | ⟨-, hq⟩
          · exact absurd ⟨hr1, hc1, hinb⟩ hneg
          exact hpb r0 c0 hr0 q hq hqP
      · -- non-pawn with a promotion field: the substitution is skipped
        rw [if_neg hk] at hq
        have hnE : ¬(p.kind = Kind.P ∧ b.en_passant = some (er, ec) ∧
            board_get b.board er ec = none) := fun h => hk h.1
        rw [if_neg hnE] at hq
        dsimp only at hq
        by_cases hcast : p.kind = Kind.K ∧ (ec - sc).natAbs = 2
        · rw [if_pos hcast] at hq
          by_cases hec : ec = 6
          · rw [if_pos hec] at hq
            rcases board_get_set_cases
                (wf_squares_set (wf_squares_set (wf_squares_set hwf _ _ _) _ _ _) _ _ _)
                hq with ⟨-, -, -, hv⟩ | ⟨-, hq⟩
            · exact Option.noConfusion hv
            rcases board_get_set_cases (wf_squares_set (wf_squares_set hwf _ _ _) _ _ _) hq
              with ⟨hr1, -, -, hv⟩ | ⟨-, hq⟩
            · rcases board_get_set_cases (wf_squares_set hwf _ _ _) hv
                with ⟨-, -, -, hv2⟩ | ⟨-, hv⟩
              · exact Option.noConfusion hv2
              rcases board_get_set_cases hwf hv with ⟨-, -, -, hv2⟩ | ⟨-, hv⟩
              · cases hv2
                exact hk hqP
              exact hpb er 7 (hr1 ▸ hr0) q hv hqP
            rcases board_get_set_cases (wf_squares_set hwf _ _ _) hq
              with ⟨-, -, -, hv⟩ | ⟨-, hq⟩
            · exact Option.noConfusion hv
            rcases board_get_set_cases hwf hq with ⟨-, -, -, hv⟩ | ⟨-, hq⟩
            · cases hv
              exact hk hqP
            exact hpb r0 c0 hr0 q hq hqP
          · rw [if_neg hec] at hq
            rcases board_get_set_cases
                (wf_squares_set (wf_squares_set (wf_squares_set hwf _ _ _) _ _ _) _ _ _)
                hq with ⟨-, -, -, hv⟩ | ⟨-, hq⟩
            · exact Option.noConfusion hv
            rcases board_get_set_cases (wf_squares_set (wf_squares_set hwf _ _ _) _ _ _) hq
              with ⟨hr1, -, -, hv⟩ | ⟨-, hq⟩
            · rcases board_get_set_cases (wf_squares_set hwf _ _ _) hv
                with ⟨-, -, -, hv2⟩ | ⟨-, hv⟩
              · exact Option.noConfusion hv2
              rcases board_get_set_cases hwf hv with ⟨-, -, -, hv2⟩ | ⟨-, hv⟩
              · cases hv2
                exact hk hqP
              exact hpb er 0 (hr1 ▸ hr0) q hv hqP
            rcases board_get_set_cases (wf_squares_set hwf _ _ _) hq
              with ⟨-, -, -, hv⟩ | ⟨-, hq⟩
            · exact Option.noConfusion hv
            rcases board_get_set_cases hwf hq with ⟨-, -, -, hv⟩ | ⟨-, hq⟩
            · cases hv
              exact hk hqP
            exact hpb r0 c0 hr0 q hq hqP
        · rw [if_neg hcast] at hq
          rcases board_get_set_cases (wf_squares_set hwf _ _ _) hq
            with ⟨-, -, -, hv⟩ | ⟨-, hq⟩
          · exact Option.noConfusion hv
          rcases board_get_set_cases hwf hq with ⟨-, -, -, hv⟩ | ⟨-, hq⟩
          · cases hv
            exact hk hqP
          exact hpb r0 c0 hr0 q hq hqP

/-- C10: in a position whose en-passant target is off the back rows and
whose back rows hold no pawn (invariants of every reachable state), a
pseudo-legal move carries a promotion exactly when it moves a pawn onto
row 0 or row 7, every promotion kind is one of the four in `promos`
(queen, rook, bishop, knight), and consequently applying any generated
move never leaves a pawn standing on either back row. -/
theorem C10_promotion_iff_last_rank (b : Board) (hwf : wf_squares b.board)
    (hep : ep_row_ok b) (hpb : no_pawn_back_rank b) :
    (∀ mv ∈ generate_pseudo_legal_moves b,
      (mv.promotion ≠ none ↔
        (∃ p, piece_at b mv.start = some p ∧ p.kind = Kind.P) ∧
          (mv.stop.1 = 0 ∨ mv.stop.1 = 7))) ∧
    (∀ mv ∈ generate_pseudo_legal_moves b, ∀ k, mv.promotion = some k → k ∈ promos) ∧
    (∀ mv ∈ generate_pseudo_legal_moves b, no_pawn_back_rank (apply_move b mv)) := by
  have hdecomp : ∀ mv ∈ generate_pseudo_legal_moves b, ∃ sq p,
      board_get b.board sq.1 sq.2 = some p ∧ mv ∈ piece_moves b sq p false := by
    intro mv hmv
    rcases List.mem_flatMap.mp hmv with ⟨sq, hsq, harm⟩
    rcases hg : board_get b.board sq.1 sq.2 with _ | p <;> rw [hg] at harm <;>
      dsimp only at harm
    · exact absurd harm (List.not_mem_nil mv)
    · split_ifs at harm with hcol
      · exact ⟨sq, p, hg, harm⟩
      · exact absurd harm (List.not_mem_nil mv)
  refine ⟨?_, ?_, ?_⟩
  · intro mv hmv
    obtain ⟨sq, p, hg, hmem⟩ := hdecomp mv hmv
    obtain ⟨spec1, spec2, spec3⟩ := piece_moves_spec hmem
    constructor
    · intro hne
      rcases hpo : mv.promotion with _ | k
      · exact absurd hpo hne
      · obtain ⟨hkind, hstart, hrow, -⟩ := spec1 k hpo
        exact ⟨⟨p, by rw [hstart]; simpa [piece_at] using hg, hkind⟩, hrow⟩
    · rintro ⟨⟨q, hqat, hqk⟩, hrow⟩
      rcases spec2 with hstart | ⟨hpn, hhome⟩
      · have hqp : q = p := by
          rw [hstart] at hqat
          simp only [piece_at] at hqat
          rw [hg] at hqat
          exact (Option.some.inj hqat).symm
        exact spec3 (hqp ▸ hqk) hrow hep
      · exfalso
        rcases hhome with h74 | h04
        · exact hpb 7 4 (Or.inr rfl) q (by rw [h74] at hqat; simpa [piece_at] using hqat) hqk
        · exact hpb 0 4 (Or.inl rfl) q (by rw [h04] at hqat; simpa [piece_at] using hqat) hqk
  · intro mv hmv k hk
    obtain ⟨sq, p, hg, hmem⟩ := hdecomp mv hmv
    exact ((piece_moves_spec hmem).1 k hk).2.2.2
  · intro mv hmv
    obtain ⟨sq, p, hg, hmem⟩ := hdecomp mv hmv
    obtain ⟨spec1, spec2, spec3⟩ := piece_moves_spec hmem
    have hpromo : ∀ k, mv.promotion = some k → k ≠ Kind.P := fun k hk =>
      promos_ne_P k ((spec1 k hk).2.2.2)
    have hpawn : ∀ pp, board_get b.board mv.start.1 mv.start.2 = some pp →
        pp.kind = Kind.P → (mv.stop.1 = 0 ∨ mv.stop.1 = 7) → mv.promotion ≠ none := by
      intro pp hpp hppk hrow
      rcases spec2 with hstart | ⟨hpn, hhome⟩
      · have : pp = p := by
          rw [hstart] at hpp
          rw [hg] at hpp
          exact (Option.some.inj hpp).symm
        exact spec3 (this ▸ hppk) hrow hep
      · exfalso
        rcases hhome with h74 | h04
        · exact hpb 7 4 (Or.inr rfl) pp (by rw [h74] at hpp; exact hpp) hppk
        · exact hpb 0 4 (Or.inl rfl) pp (by rw [h04] at hpp; exact hpp) hppk
    exact moved_board_no_pawn b mv hwf hpb hpromo hpawn

set_option maxRecDepth 1000000 in
/-- C10 witness: the invariants hold at the initial position, and
applying the generated double push e2e4 leaves the back rows free of
pawns. -/
theorem C10_promotion_iff_last_rank_witness :
    no_pawn_back_rank (apply_move initial_board (Move.mk (6, 4) (4, 4) none)) ∧
    (Move.mk (6, 4) (4, 4) none).promotion = none := by
  have h := C10_promotion_iff_last_rank initial_board (by decide) (by decide)
    (no_pawn_back_rank_of (by decide))
  constructor
  · exact h.2.2 (Move.mk (6, 4) (4, 4) none) (by decide)
  · rfl

theorem Score.le_def {a b : Score} : (a ≤ b) ↔ Score.ble a b = true := Iff.rfl

theorem Score.negInf_le (s : Score) : Score.negInf ≤ s := by cases s <;> rfl

theorem Score.le_posInf (s : Score) : s ≤ Score.posInf := by cases s <;> rfl

theorem Score.fin_le_fin {a b : Int} : Score.fin a ≤ Score.fin b ↔ a ≤ b := by
  simp [Score.le_def, Score.ble]

theorem Score.negInf_lt_fin {n : Int} : Score.negInf < Score.fin n :=
  lt_of_le_of_ne (Score.negInf_le _) (fun h => Score.noConfusion h)

theorem Score.negInf_lt_posInf : (Score.negInf : Score) < Score.posInf :=
  lt_of_le_of_ne (Score.negInf_le _) (fun h => Score.noConfusion h)

theorem Score.neg_neg (s : Score) : s.neg.neg = s := by
  cases s <;> simp [Score.neg]

theorem Score.neg_le_neg_iff {a b : Score} : a.neg ≤ b.neg ↔ b ≤ a := by
  cases a <;> cases b <;> simp [Score.neg, Score.le_def, Score.ble] <;> omega

theorem Score.max_fin (a b : Int) :
    max (Score.fin a) (Score.fin b) = Score.fin (max a b) := by
  rcases le_total a b with h | h
  · rw [max_eq_right (Score.fin_le_fin.mpr h), max_eq_right h]
  · rw [max_eq_left (Score.fin_le_fin.mpr h), max_eq_left h]

theorem Score.min_fin (a b : Int) :
    min (Score.fin a) (Score.fin b) = Score.fin (min a b) := by
  rcases le_total a b with h | h
  · rw [min_eq_left (Score.fin_le_fin.mpr h), min_eq_left h]
  · rw [min_eq_right (Score.fin_le_fin.mpr h), min_eq_right h]

theorem Score.max_negInf (s : Score) : max Score.negInf s = s :=
  max_eq_right (Score.negInf_le s)

theorem Score.min_posInf (s : Score) : min Score.posInf s = s :=
  min_eq_right (Score.le_posInf s)

theorem km_spec_of_eq {g v alpha beta : Score} (h : g = v) : km_spec g v alpha beta := by
  subst h
  exact ⟨fun _ => le_rfl, fun _ => le_rfl, fun _ _ => rfl⟩

theorem if_lt_max (a s : Score) : (if a < s then s else a) = max a s := by
  rcases lt_or_le a s with h | h
  · rw [if_pos h, max_eq_right h.le]
  · rw [if_neg (not_lt_of_le h), max_eq_left h]

theorem le_foldl_max (g : Move → Score) :
    ∀ (l : List Move) (a : Score), a ≤ l.foldl (fun x mv => max x (g mv)) a := by
  intro l
  induction l with
  | nil => intro a; exact le_rfl
  | cons mv rest ih =>
    intro a
    exact le_trans (le_max_left a (g mv)) (ih (max a (g mv)))

theorem foldl_max_mono (g : Move → Score) :
    ∀ (l : List Move) {a b : Score}, a ≤ b →
      l.foldl (fun x mv => max x (g mv)) a ≤ l.foldl (fun x mv => max x (g mv)) b := by
  intro l
  induction l with
  | nil => intro a b h; exact h
  | cons mv rest ih =>
    intro a b h
    exact ih (max_le_max h le_rfl)

theorem foldl_max_pull (g : Move → Score) :
    ∀ (l : List Move) (a x : Score),
      l.foldl (fun y mv => max y (g mv)) (max a x) =
        max (l.foldl (fun y mv => max y (g mv)) a) x := by
  intro l
  induction l with
  | nil => intro a x; rfl
  | cons mv rest ih =>
    intro a x
    simp only [List.foldl_cons]
    rw [max_assoc a x (g mv), max_comm x (g mv), ← max_assoc a (g mv) x, ih]

theorem foldl_min_le (g : Move → Score) :
    ∀ (l : List Move) (a : Score), l.foldl (fun x mv => min x (g mv)) a ≤ a := by
  intro l
  induction l with
  | nil => intro a; exact le_rfl
  | cons mv rest ih =>
    intro a
    exact le_trans (ih (min a (g mv))) (min_le_left a (g mv))

theorem foldl_min_mono (g : Move → Score) :
    ∀ (l : List Move) {a b : Score}, a ≤ b →
      l.foldl (fun x mv => min x (g mv)) a ≤ l.foldl (fun x mv => min x (g mv)) b := by
  intro l
  induction l with
  | nil => intro a b h; exact h
  | cons mv rest ih =>
    intro a b h
    exact ih (min_le_min h le_rfl)

theorem foldl_min_pull (g : Move → Score) :
    ∀ (l : List Move) (a x : Score),
      l.foldl (fun y mv => min y (g mv)) (min a x) =
        min (l.foldl (fun y mv => min y (g mv)) a) x := by
  intro l
  induction l with
  | nil => intro a x; rfl
  | cons mv rest ih =>
    intro a x
    simp only [List.foldl_cons]
    rw [min_assoc a x (g mv), min_comm x (g mv), ← min_assoc a (g mv) x, ih]

theorem le_ab_max_loop (f : Board → Score → Score → Score) (b : Board) :
    ∀ (moves : List Move) (alpha beta acc : Score),
      acc ≤ ab_max_loop f b moves alpha beta acc := by
  intro moves
  induction moves with
  | nil => intro alpha beta acc; exact le_rfl
  | cons mv rest ih =>
    intro alpha beta acc
    simp only [ab_max_loop]
    split_ifs
    · exact le_max_left _ _
    · exact le_trans (le_max_left _ _) (ih _ _ _)

theorem ab_min_loop_le (f : Board → Score → Score → Score) (b : Board) :
    ∀ (moves : List Move) (alpha beta acc : Score),
      ab_min_loop f b moves alpha beta acc ≤ acc := by
  intro moves
  induction moves with
  | nil => intro alpha beta acc; exact le_rfl
  | cons mv rest ih =>
    intro alpha beta acc
    simp only [ab_min_loop]
    split_ifs
    · exact min_le_left _ _
    · exact le_trans (ih _ _ _) (min_le_left _ _)

/-- Knuth-Moore fail-soft correctness of the maximizing loop of
`alpha_beta`, relative to the plain maximum fold of the true child
values, assuming the recursive calls satisfy the same specification. -/
theorem ab_max_loop_km (f : Board → Score → Score → Score) (vF : Board → Score) (b : Board)
    (hf : ∀ c a2 b2, a2 < b2 → km_spec (f c a2 b2) (vF c) a2 b2) :
    ∀ (moves : List Move) (alpha beta acc : Score), acc ≤ alpha → alpha < beta →
      km_spec (ab_max_loop f b moves alpha beta acc)
        (moves.foldl (fun a mv => max a (vF (apply_move (clone b) mv))) acc) alpha beta := by
  intro moves
  induction moves with
  | nil =>
    intro alpha beta acc hacc hab
    exact km_spec_of_eq rfl
  | cons mv rest ih =>
    intro alpha beta acc hacc hab
    have hfc := hf (apply_move (clone b) mv) alpha beta hab
    simp only [ab_max_loop, List.foldl_cons]
    set e := f (apply_move (clone b) mv) alpha beta with hEdef
    set v := vF (apply_move (clone b) mv) with hVdef
    by_cases hcut : beta ≤ max alpha e
    · rw [if_pos hcut]
      have hbe : beta ≤ e := by
        rcases le_max_iff.mp hcut with h | h
        · exact absurd (lt_of_lt_of_le hab h) (lt_irrefl alpha)
        · exact h
      have hedge : max acc e = e := max_eq_right (le_trans hacc (le_trans hab.le hbe))
      rw [hedge]
      refine ⟨fun hga => ?_, fun _ => ?_, fun _ hlt => ?_⟩
      · exact absurd (lt_of_lt_of_le hab (le_trans hbe hga)) (lt_irrefl alpha)
      · exact le_trans (hfc.2.1 hbe)
          (le_trans (le_max_right acc v) (le_foldl_max _ rest _))
      · exact absurd hlt (not_lt_of_le hbe)
    · rw [if_neg hcut]
      have hab' : max alpha e < beta := not_le.mp hcut
      have helt : e < beta := lt_of_le_of_lt (le_max_right alpha e) hab'
      rcases le_or_lt e alpha with hea | hae
      · -- the child failed low: its value bounds the true value from above
        have hve : v ≤ e := hfc.1 hea
        have hmaxa : max alpha e = alpha := max_eq_left hea
        rw [hmaxa]
        have ihh := ih alpha beta (max acc e) (max_le hacc hea) hab
        have hmono1 :
            rest.foldl (fun a mv => max a (vF (apply_move (clone b) mv))) (max acc v) ≤
              rest.foldl (fun a mv => max a (vF (apply_move (clone b) mv))) (max acc e) :=
          foldl_max_mono _ rest (max_le_max le_rfl hve)
        have hup :
            rest.foldl (fun a mv => max a (vF (apply_move (clone b) mv))) (max acc e) ≤
              max (rest.foldl (fun a mv => max a (vF (apply_move (clone b) mv)))
                (max acc v)) e := by
          calc rest.foldl (fun a mv => max a (vF (apply_move (clone b) mv))) (max acc e) ≤
              rest.foldl (fun a mv => max a (vF (apply_move (clone b) mv)))
                (max (max acc v) e) :=
                foldl_max_mono _ rest (max_le_max (le_max_left acc v) le_rfl)
            _ = max (rest.foldl (fun a mv => max a (vF (apply_move (clone b) mv)))
                (max acc v)) e := foldl_max_pull _ rest _ _
        refine ⟨fun hga => ?_, fun hbg => ?_, fun hag hgb => ?_⟩
        · exact le_trans hmono1 (ihh.1 hga)
        · have h2 := le_trans (ihh.2.1 hbg) hup
          rcases le_max_iff.mp h2 with h | h
          · exact h
          · exact absurd (lt_of_le_of_lt (le_trans h hea) hab) (not_lt_of_le hbg)
        · have hgeq := ihh.2.2 hag hgb
          rw [← hgeq] at hmono1
          have h2 := le_trans (le_of_eq hgeq) hup
          rcases le_max_iff.mp h2 with h | h
          · exact le_antisymm h hmono1
          · exact absurd hag (not_lt_of_le (le_trans h hea))
      · -- the child value is exact
        have hev : e = v := hfc.2.2 hae helt
        have hmaxa : max alpha e = e := max_eq_right hae.le
        have hmacc : max acc e = e := max_eq_right (le_trans hacc hae.le)
        have hmaccv : max acc v = v := max_eq_right (le_trans hacc (hev ▸ hae).le)
        rw [hmaxa, hmacc, hmaccv, ← hev]
        have ihh := ih e beta e le_rfl helt
        have hge := le_ab_max_loop f b rest e beta e
        refine ⟨fun hga => ?_, fun hbg => ihh.2.1 hbg, fun hag hgb => ?_⟩
        · exact absurd (lt_of_lt_of_le hae (le_trans hge hga)) (lt_irrefl alpha)
        · rcases lt_or_le e (ab_max_loop f b rest e beta e) with h | h
          · exact ihh.2.2 h hgb
          · have hloop : ab_max_loop f b rest e beta e = e := le_antisymm h hge
            have hfle := ihh.1 (le_of_eq hloop)
            rw [hloop] at hfle ⊢
            exact le_antisymm (le_foldl_max _ rest e) hfle

/-- Knuth-Moore fail-soft correctness of the minimizing loop of
`alpha_beta`, dual to `ab_max_loop_km`. -/
theorem ab_min_loop_km (f : Board → Score → Score → Score) (vF : Board → Score) (b : Board)
    (hf : ∀ c a2 b2, a2 < b2 → km_spec (f c a2 b2) (vF c) a2 b2) :
    ∀ (moves : List Move) (alpha beta acc : Score), beta ≤ acc → alpha < beta →
      km_spec (ab_min_loop f b moves alpha beta acc)
        (moves.foldl (fun a mv => min a (vF (apply_move (clone b) mv))) acc) alpha beta := by
  intro moves
  induction moves with
  | nil =>
    intro alpha beta acc hacc hab
    exact km_spec_of_eq rfl
  | cons mv rest ih =>
    intro alpha beta acc hacc hab
    have hfc := hf (apply_move (clone b) mv) alpha beta hab
    simp only [ab_min_loop, List.foldl_cons]
    set e := f (apply_move (clone b) mv) alpha beta with hEdef
    set v := vF (apply_move (clone b) mv) with hVdef
    by_cases hcut : min beta e ≤ alpha
    · rw [if_pos hcut]
      have hea : e ≤ alpha := by
        rcases min_le_iff.mp hcut with h | h
        · exact absurd (lt_of_lt_of_le hab h) (lt_irrefl alpha)
        · exact h
      have hedge : min acc e = e := min_eq_right (le_trans (le_trans hea hab.le) hacc)
      rw [hedge]
      refine ⟨fun _ => ?_, fun hbg => ?_, fun hlt _ => ?_⟩
      · exact le_trans (le_trans (foldl_min_le _ rest _) (min_le_right acc v)) (hfc.1 hea)
      · exact absurd (lt_of_lt_of_le hab (le_trans hbg hea)) (lt_irrefl alpha)
      · exact absurd hlt (not_lt_of_le hea)
    · rw [if_neg hcut]
      have hab' : alpha < min beta e := not_le.mp hcut
      have haee : alpha < e := lt_of_lt_of_le hab' (min_le_right beta e)
      rcases le_or_lt beta e with hbe | heb
      · -- the child failed high: its value bounds the true value from below
        have hve : e ≤ v := hfc.2.1 hbe
        have hminb : min beta e = beta := min_eq_left hbe
        rw [hminb]
        have ihh := ih alpha beta (min acc e) (le_min hacc hbe) hab
        have hmono1 :
            rest.foldl (fun a mv => min a (vF (apply_move (clone b) mv))) (min acc e) ≤
              rest.foldl (fun a mv => min a (vF (apply_move (clone b) mv))) (min acc v) :=
          foldl_min_mono _ rest (min_le_min le_rfl hve)
        have hdown :
            min (rest.foldl (fun a mv => min a (vF (apply_move (clone b) mv)))
                (min acc v)) e ≤
              rest.foldl (fun a mv => min a (vF (apply_move (clone b) mv))) (min acc e) := by
          calc min (rest.foldl (fun a mv => min a (vF (apply_move (clone b) mv)))
                (min acc v)) e =
              rest.foldl (fun a mv => min a (vF (apply_move (clone b) mv)))
                (min (min acc v) e) := (foldl_min_pull _ rest _ _).symm
            _ ≤ rest.foldl (fun a mv => min a (vF (apply_move (clone b) mv)))
                (min acc e) :=
                foldl_min_mono _ rest (min_le_min (min_le_left acc v) le_rfl)
        refine ⟨fun hga => ?_, fun hbg => ?_, fun hag hgb => ?_⟩
        · have h2 := le_trans hdown (ihh.1 hga)
          rcases min_le_iff.mp h2 with h | h
          · exact h
          · exact absurd (lt_of_lt_of_le hab (le_trans hbe (le_trans h hga)))
              (lt_irrefl alpha)
        · exact le_trans (ihh.2.1 hbg) hmono1
        · have hgeq := ihh.2.2 hag hgb
          rw [← hgeq] at hmono1
          have h2 := le_trans hdown (le_of_eq hgeq.symm)
          rcases min_le_iff.mp h2 with h | h
          · exact le_antisymm hmono1 h
          · exact absurd hgb (not_lt_of_le (le_trans hbe h))
      · -- the child value is exact
        have hev : e = v := hfc.2.2 haee heb
        have hminb : min beta e = e := min_eq_right heb.le
        have hmacc : min acc e = e := min_eq_right (le_trans heb.le hacc)
        have hmaccv : min acc v = v := min_eq_right (le_trans (hev ▸ heb).le hacc)
        rw [hminb, hmacc, hmaccv, ← hev]
        have ihh := ih alpha e e le_rfl haee
        have hle := ab_min_loop_le f b rest alpha e e
        refine ⟨fun hga => ihh.1 hga, fun hbg => ?_, fun hag hgb => ?_⟩
        · exact absurd (le_trans hbg hle) (not_le_of_lt heb)
        · rcases lt_or_le (ab_min_loop f b rest alpha e e) e with h | h
          · exact ihh.2.2 hag h
          · have hloop : ab_min_loop f b rest alpha e e = e := le_antisymm hle h
            have hfge := ihh.2.1 (le_of_eq hloop.symm)
            rw [hloop] at hfge ⊢
            exact le_antisymm hfge (foldl_min_le _ rest e)

/-- The node-level Knuth-Moore theorem: for every window `alpha < beta`,
the value `alpha_beta` computes relates to the unpruned `minimax` value
of the same node by the fail-soft specification; in particular inside
the window the two agree exactly. -/
theorem alpha_beta_km (ai : AggressiveAlphaBetaAI) :
    ∀ (d : Nat) (b : Board) (alpha beta : Score) (m : Bool), alpha < beta →
      km_spec (alpha_beta ai d b alpha beta m) (minimax ai d b m) alpha beta := by
  intro d
  induction d with
  | zero =>
    intro b alpha beta m hab
    refine km_spec_of_eq ?_
    rcases hres : result b with _ | res <;> simp [alpha_beta, minimax, hres]
  | succ d ih =>
    intro b alpha beta m hab
    rcases hres : result b with _ | res
    · by_cases hmv : generate_legal_moves b = []
      · refine km_spec_of_eq ?_
        simp [alpha_beta, minimax, hres, hmv]
      · cases m
        · have h1 : alpha_beta ai (d + 1) b alpha beta false =
              ab_min_loop (fun c a2 b2 => alpha_beta ai d c a2 b2 true) b
                (order_moves ai b (generate_legal_moves b)) alpha beta Score.posInf := by
            simp [alpha_beta, hres, hmv]
          have h2 : minimax ai (d + 1) b false =
              (order_moves ai b (generate_legal_moves b)).foldl
                (fun a mv => min a (minimax ai d (apply_move (clone b) mv) true))
                Score.posInf := by
            simp [minimax, hres, hmv]
          rw [h1, h2]
          exact ab_min_loop_km (fun c a2 b2 => alpha_beta ai d c a2 b2 true)
            (fun c => minimax ai d c true) b (fun c a2 b2 h => ih c a2 b2 true h)
            (order_moves ai b (generate_legal_moves b)) alpha beta Score.posInf
            (Score.le_posInf beta) hab
        · have h1 : alpha_beta ai (d + 1) b alpha beta true =
              ab_max_loop (fun c a2 b2 => alpha_beta ai d c a2 b2 false) b
                (order_moves ai b (generate_legal_moves b)) alpha beta Score.negInf := by
            simp [alpha_beta, hres, hmv]
          have h2 : minimax ai (d + 1) b true =
              (order_moves ai b (generate_legal_moves b)).foldl
                (fun a mv => max a (minimax ai d (apply_move (clone b) mv) false))
                Score.negInf := by
            simp [minimax, hres, hmv]
          rw [h1, h2]
          exact ab_max_loop_km (fun c a2 b2 => alpha_beta ai d c a2 b2 false)
            (fun c => minimax ai d c false) b (fun c a2 b2 h => ih c a2 b2 false h)
            (order_moves ai b (generate_legal_moves b)) alpha beta Score.negInf
            (Score.negInf_le alpha) hab
    · refine km_spec_of_eq ?_
      simp [alpha_beta, minimax, hres]

theorem decisive_score_fin (ai : AggressiveAlphaBetaAI) (depth : Nat) (res : String)
    (m : Bool) : ∃ n, decisive_score ai depth res m = Score.fin n := by
  unfold decisive_score
  split_ifs <;> exact ⟨_, rfl⟩

theorem ab_max_loop_fin (f : Board → Score → Score → Score) (b : Board)
    (hfin : ∀ c a2 b2, ∃ n, f c a2 b2 = Score.fin n) :
    ∀ (moves : List Move) (alpha beta : Score) (k : Int),
      ∃ n, ab_max_loop f b moves alpha beta (Score.fin k) = Score.fin n := by
  intro moves
  induction moves with
  | nil => intro alpha beta k; exact ⟨k, rfl⟩
  | cons mv rest ih =>
    intro alpha beta k
    simp only [ab_max_loop]
    obtain ⟨n, hn⟩ := hfin (apply_move (clone b) mv) alpha beta
    rw [hn, Score.max_fin]
    split_ifs
    · exact ⟨max k n, rfl⟩
    · exact ih _ _ _

theorem ab_min_loop_fin (f : Board → Score → Score → Score) (b : Board)
    (hfin : ∀ c a2 b2, ∃ n, f c a2 b2 = Score.fin n) :
    ∀ (moves : List Move) (alpha beta : Score) (k : Int),
      ∃ n, ab_min_loop f b moves alpha beta (Score.fin k) = Score.fin n := by
  intro moves
  induction moves with
  | nil => intro alpha beta k; exact ⟨k, rfl⟩
  | cons mv rest ih =>
    intro alpha beta k
    simp only [ab_min_loop]
    obtain ⟨n, hn⟩ := hfin (apply_move (clone b) mv) alpha beta
    rw [hn, Score.min_fin]
    split_ifs
    · exact ⟨min k n, rfl⟩
    · exact ih _ _ _

/-- Every value `alpha_beta` returns is a finite number, never one of
the infinities: the decisive, evaluation and defensive branches return
numbers, and each loop processes at least one child before any cutoff. -/
theorem alpha_beta_fin (ai : AggressiveAlphaBetaAI) :
    ∀ (d : Nat) (b : Board) (alpha beta : Score) (m : Bool),
      ∃ n, alpha_beta ai d b alpha beta m = Score.fin n := by
  intro d
  induction d with
  | zero =>
    intro b alpha beta m
    rcases hres : result b with _ | res
    · exact ⟨evaluate_position ai b, by simp [alpha_beta, hres]⟩
    · obtain ⟨n, hn⟩ := decisive_score_fin ai 0 res m
      exact ⟨n, by simp [alpha_beta, hres, hn]⟩
  | succ d ih =>
    intro b alpha beta m
    rcases hres : result b with _ | res
    · by_cases hmv : generate_legal_moves b = []
      · have h1 : alpha_beta ai (d + 1) b alpha beta m =
            (if is_in_check b b.turn then
              Score.fin (-10000 + ((ai.max_depth : Int) - (d + 1))) else Score.fin 0) := by
          simp [alpha_beta, hres, hmv]
        rw [h1]
        split_ifs <;> exact ⟨_, rfl⟩
      · have hord : order_moves ai b (generate_legal_moves b) ≠ [] := by
          intro hE
          apply hmv
          have h3 := @List.length_mergeSort Move
            (fun x y => decide (move_score ai b y ≤ move_score ai b x))
            (generate_legal_moves b)
          unfold order_moves at hE
          rw [hE] at h3
          exact List.eq_nil_of_length_eq_zero h3.symm
        rcases hO : order_moves ai b (generate_legal_moves b) with _ | ⟨mv0, rest⟩
        · exact absurd hO hord
        · cases m
          · have h1 : alpha_beta ai (d + 1) b alpha beta false =
                ab_min_loop (fun c a2 b2 => alpha_beta ai d c a2 b2 true) b
                  (mv0 :: rest) alpha beta Score.posInf := by
              rw [← hO]
              simp [alpha_beta, hres, hmv]
            rw [h1]
            simp only [ab_min_loop]
            obtain ⟨n, hn⟩ := ih (apply_move (clone b) mv0) alpha beta true
            rw [hn, Score.min_posInf]
            split_ifs
            · exact ⟨n, rfl⟩
            · exact ab_min_loop_fin _ b (fun c a2 b2 => ih c a2 b2 true) rest _ _ n
          · have h1 : alpha_beta ai (d + 1) b alpha beta true =
                ab_max_loop (fun c a2 b2 => alpha_beta ai d c a2 b2 false) b
                  (mv0 :: rest) alpha beta Score.negInf := by
              rw [← hO]
              simp [alpha_beta, hres, hmv]
            rw [h1]
            simp only [ab_max_loop]
            obtain ⟨n, hn⟩ := ih (apply_move (clone b) mv0) alpha beta false
            rw [hn, Score.max_negInf]
            split_ifs
            · exact ⟨n, rfl⟩
            · exact ab_max_loop_fin _ b (fun c a2 b2 => ih c a2 b2 false) rest _ _ n
    · obtain ⟨n, hn⟩ := decisive_score_fin ai (d + 1) res m
      exact ⟨n, by simp [alpha_beta, hres, hn]⟩

/-- The root loop of `get_move`, started with equal `best_score` and
`alpha` (as the source does, both at negative infinity), computes in its
`best_score` component exactly the running maximum of the negated
unpruned minimax values of the children: the windows `(-inf, -alpha)`
never change which value the maximum picks. -/
theorem root_loop_snd (ai : AggressiveAlphaBetaAI) (b : Board) :
    ∀ (moves : List Move) (bm : Move) (alpha : Score),
      (alpha = Score.negInf ∨ ∃ k, alpha = Score.fin k) →
      (root_loop ai b moves bm alpha alpha).2 =
        moves.foldl (fun a mv => max a (Score.neg (minimax ai (ai.max_depth - 1)
          (apply_move (clone b) mv) false))) alpha := by
  intro moves
  induction moves with
  | nil => intro bm alpha _; rfl
  | cons mv rest ih =>
    intro bm alpha halpha
    simp only [root_loop, List.foldl_cons]
    obtain ⟨n, hn⟩ := alpha_beta_fin ai (ai.max_depth - 1) (apply_move (clone b) mv)
      (Score.neg Score.posInf) (Score.neg alpha) false
    have hw : Score.neg Score.posInf < Score.neg alpha := by
      rcases halpha with rfl | ⟨k, rfl⟩
      · exact Score.negInf_lt_posInf
      · exact Score.negInf_lt_fin
    have hkm := alpha_beta_km ai (ai.max_depth - 1) (apply_move (clone b) mv)
      (Score.neg Score.posInf) (Score.neg alpha) false hw
    rw [hn] at hkm
    rw [hn]
    rcases le_or_lt (Score.neg alpha) (Score.fin n) with hge | hlt
    · have h1 : Score.neg (Score.fin n) ≤ alpha := by
        have h2 := Score.neg_le_neg_iff.mpr hge
        rwa [Score.neg_neg] at h2
      have hvn := hkm.2.1 hge
      have h2 : Score.neg (minimax ai (ai.max_depth - 1) (apply_move (clone b) mv) false)
          ≤ alpha := le_trans (Score.neg_le_neg_iff.mpr hvn) h1
      simp only [if_neg (not_lt_of_le h1)]
      rw [max_eq_left h1, max_eq_left h2]
      exact ih bm alpha halpha
    · have hvn : Score.fin n =
          minimax ai (ai.max_depth - 1) (apply_move (clone b) mv) false :=
        hkm.2.2 Score.negInf_lt_fin hlt
      rw [← hvn, if_lt_max alpha (Score.neg (Score.fin n))]
      have halpha' : max alpha (Score.neg (Score.fin n)) = Score.negInf ∨
          ∃ k, max alpha (Score.neg (Score.fin n)) = Score.fin k := by
        rcases halpha with rfl | ⟨k, rfl⟩
        · exact Or.inr ⟨-n, by
            rw [show Score.neg (Score.fin n) = Score.fin (-n) from rfl, Score.max_negInf]⟩
        · exact Or.inr ⟨max k (-n), by
            rw [show Score.neg (Score.fin n) = Score.fin (-n) from rfl, Score.max_fin]⟩
      exact ih _ _ halpha'

/-- C4: with the time limit never expiring, the best negated child score
found by the root loop of `get_move` (the pruned alpha-beta search)
equals the value of the unpruned full minimax over the same game tree
with the same evaluation and mate scoring: pruning never changes the
root score. -/
theorem C4_alpha_beta_equals_minimax (ai : AggressiveAlphaBetaAI) (b : Board) :
    root_score ai b = minimax_root_score ai b := by
  unfold root_score minimax_root_score
  exact root_loop_snd ai b (order_moves ai b (generate_legal_moves b))
    (Move.mk (0, 0) (0, 0) none) Score.negInf (Or.inl rfl)

end Chessapp
